import Mathlib

/-!
Verification development for the s-rack modular audio synthesis engine.

Shallow embedding of the Rust sources:
* `src/synth.rs` — `TransitionDetector`, `OutputModule`, `plan_execution`
* `src/synth/filter.rs` — `InternalMoogFilterState`, `MoogFilterModule::calc`
* `src/synth/math.rs` — `MathModule::calc`
* `src/synth/sample.rs` — `SampleModule::calc`
* `src/synth/sequencer.rs` — `GridSequencerModule::calc`
* `src/ui.rs` — `SynthModuleWorkspaceImpl::{serialize, deserialize}`, `FileFormat`

Control-voltage samples (`f32` in the source) are modelled as rationals `ℚ`,
so the arithmetic is exact; every modelled operation of the source is a plain
rational operation (comparisons, +, -, *, min/max clamps), for which the f32
computation agrees with the exact one except for rounding, and the clamp
arguments below make the proved bounds independent of rounding.
-/

/-! ### TransitionDetector (src/synth.rs lines 596-617)

State `last : bool`, initialised to `true`.
`is_transition(val)` returns `val > 0 && !last` and stores `last := val > 0`. -/

structure TransitionDetector where
  last : Bool
deriving DecidableEq, Repr

def TransitionDetector.new : TransitionDetector := ⟨true⟩

def is_above_threshold (val : ℚ) : Bool := decide (val > 0)

/-- Mirrors `TransitionDetector::is_transition`: returns the transition flag
together with the updated detector state. -/
def TransitionDetector.is_transition (td : TransitionDetector) (val : ℚ) :
    Bool × TransitionDetector :=
  let above := is_above_threshold val
  (above && !td.last, ⟨above⟩)

/-- Feed a sample sequence through a detector, collecting the per-sample
transition results (the detector state threads left to right). -/
def runDetector (td : TransitionDetector) : List ℚ → List Bool
  | [] => []
  | x :: xs =>
    let (r, td2) := td.is_transition x
    r :: runDetector td2 xs

/-! ### MathModule (src/synth/math.rs)

`calc` resolves the two inputs; an unconnected first input reads as the
constant `0.0`, an unconnected second input reads as the `constant` field. -/

inductive MathOperation where
  | add
  | subtract
  | multiply
deriving DecidableEq, Repr

structure MathModule where
  constant : ℚ
  op : MathOperation
deriving DecidableEq, Repr

/-- Mirrors the private method `MathModule::operation`. -/
def MathModule.operation (m : MathModule) (a b : ℚ) : ℚ :=
  match m.op with
  | .add => a + b
  | .subtract => a - b
  | .multiply => a * b

/-- Mirrors the per-sample input resolution of a possibly-unconnected buffer:
a connected buffer is read at the index, an unconnected one is absent. -/
def resolveAt (buf : Option (List ℚ)) (idx : Nat) : Option ℚ :=
  buf.map (fun l => l[idx]!)

/-- Resolved per-sample values of two possibly-unconnected input buffers over
a block: an unconnected input reads `0.0` at every index (the source's
`match ... { Some(v) => v[idx], None => 0.0 }`). -/
def blockInputs (in1 in2 : Option (List ℚ)) (len : Nat) : List (ℚ × ℚ) :=
  (List.range len).map fun idx =>
    ((resolveAt in1 idx).getD 0, (resolveAt in2 idx).getD 0)

/-- Mirrors `MathModule::calc`: one output sample per index, by cases on which
inputs are connected (`i1`/`i2` are the resolved input buffers). -/
def MathModule.calc (m : MathModule) (i1 i2 : Option (List ℚ)) (len : Nat) :
    List ℚ :=
  (List.range len).map fun idx =>
    match i1, i2 with
    | some a, some b => m.operation a[idx]! b[idx]!
    | some a, none => m.operation a[idx]! m.constant
    | none, some b => m.operation 0 b[idx]!
    | none, none => m.operation 0 m.constant

/-! ### OutputModule structural operations (src/synth.rs lines 493-594,
src/synth/output.rs)

`inputs` is one slot per device channel; a slot holds `(module id, port)`.
`CallResult` distinguishes a returned error (`Err(())` in the source) from a
Rust panic (an out-of-bounds slice index). -/

inductive CallResult (α : Type) where
  | ok (val : α)
  | err
  | panicked
deriving DecidableEq, Repr

structure OutputModule where
  inputs : List (Option (Nat × Nat))
deriving DecidableEq, Repr

def OutputModule.get_num_inputs (m : OutputModule) : Nat := m.inputs.length

def OutputModule.get_num_outputs (_ : OutputModule) : Nat := 0

/-- Mirrors `OutputModule::get_input`: the guard is `idx > self.inputs.len()`
(strict), after which the slice is indexed; indexing at `len` is a panic. -/
def OutputModule.get_input (m : OutputModule) (idx : Nat) :
    CallResult (Option (Nat × Nat)) :=
  if idx > m.inputs.length then .err
  else
    match m.inputs[idx]? with
    | some v => .ok v
    | none => .panicked

/-- Mirrors `OutputModule::set_input` (guard `idx >= self.get_num_inputs()`). -/
def OutputModule.set_input (m : OutputModule) (idx : Nat) (src : Nat × Nat) :
    CallResult OutputModule :=
  if idx ≥ m.inputs.length then .err
  else .ok ⟨m.inputs.set idx (some src)⟩

/-- Mirrors `OutputModule::disconnect_input` (guard `idx >= num_inputs`). -/
def OutputModule.disconnect_input (m : OutputModule) (idx : Nat) :
    CallResult OutputModule :=
  if idx ≥ m.inputs.length then .err
  else .ok ⟨m.inputs.set idx none⟩

/-- Mirrors `OutputModule::get_output`: always `Err(())` (sink-only module). -/
def OutputModule.get_output (_ : OutputModule) (_ : Nat) : CallResult Unit :=
  .err

/-! ### Moog filter (src/synth/filter.rs)

`InternalMoogFilterState::calc` is the per-sample ladder update; after the
stage updates every accumulator is clamped into [-1, 1] (`clamp_buffers`),
and the three outputs (lowpass, highpass, bandpass) are computed from the
clamped state. -/

structure InternalMoogFilterState where
  f : ℚ
  p : ℚ
  q : ℚ
  b0 : ℚ
  b1 : ℚ
  b2 : ℚ
  b3 : ℚ
  b4 : ℚ
  freq : ℚ
  res : ℚ
deriving DecidableEq, Repr

def InternalMoogFilterState.default : InternalMoogFilterState :=
  ⟨0, 0, 0, 0, 0, 0, 0, 0, 0, 0⟩

/-- Mirrors `clamp_buffers`: `*x = x.min(1.0).max(-1.0)` on every accumulator. -/
def moogClamp (x : ℚ) : ℚ := max (min x 1) (-1)

/-- Mirrors `InternalMoogFilterState::calc`. Returns
`((lowpass, highpass, bandpass), new state)`; the source returns the triple
`(b[4], input - b[4], 3 * (b[3] - b[4]))` computed after `clamp_buffers`. -/
def InternalMoogFilterState.calc (s : InternalMoogFilterState)
    (input frequency res : ℚ) : (ℚ × ℚ × ℚ) × InternalMoogFilterState :=
  let s :=
    if frequency ≠ s.freq ∨ res ≠ s.res then
      let q := 1 - frequency
      let p := frequency + 8/10 * frequency * q
      let f := p * 2 - 1
      let q2 := res * (1 + 1/2 * q * (1 - q + 56/10 * q * q))
      { s with freq := frequency, res := res, q := q2, p := p, f := f }
    else s
  let input := input - s.q * s.b4
  let nb1 := (input + s.b0) * s.p - s.b1 * s.f
  let nb2 := (nb1 + s.b1) * s.p - s.b2 * s.f
  let nb3 := (nb2 + s.b2) * s.p - s.b3 * s.f
  let nb4 := (nb3 + s.b3) * s.p - s.b4 * s.f
  let nb4 := nb4 - nb4 ^ 3 * (166667 / 1000000)
  let nb0 := input
  let c0 := moogClamp nb0
  let c1 := moogClamp nb1
  let c2 := moogClamp nb2
  let c3 := moogClamp nb3
  let c4 := moogClamp nb4
  ((c4, input - c4, 3 * (c3 - c4)),
    { s with b0 := c0, b1 := c1, b2 := c2, b3 := c3, b4 := c4 })

/-- Stateful run of the filter over resolved `(audio, cv)` sample pairs,
mirroring the loop body of `MoogFilterModule::calc`: the per-sample frequency
is `(freq + cv * exp_amt).max(0.0).min(0.9)` and the per-sample resonance is
`res.max(0.0).min(1.0)`. -/
def moogRun (freq res exp_amt : ℚ) :
    InternalMoogFilterState → List (ℚ × ℚ) →
    List (ℚ × ℚ × ℚ) × InternalMoogFilterState
  | st, [] => ([], st)
  | st, (audio, cv) :: rest =>
    let (out, st2) := st.calc audio (min (max (freq + cv * exp_amt) 0) (9/10))
      (min (max res 0) 1)
    let (outs, stFinal) := moogRun freq res exp_amt st2 rest
    (out :: outs, stFinal)

/-- Mirrors `MoogFilterModule::calc`: resolve the two input buffers (an
unconnected input reads `0.0` at every index) and run the filter over the
block. -/
def MoogFilterModule.calc (freq res exp_amt : ℚ)
    (audio_in cv_in : Option (List ℚ)) (len : Nat)
    (st : InternalMoogFilterState) :
    List (ℚ × ℚ × ℚ) × InternalMoogFilterState :=
  moogRun freq res exp_amt st (blockInputs audio_in cv_in len)

/-! ### GridSequencerModule (src/synth/sequencer.rs)

`sequence` cells are `None` (off), `Some (row, true)` (on-held) or
`Some (row, false)` (on-gated). `calc` advances `current_step` on a `step_in`
transition, resets it on a `sync_in` transition, wraps it when it runs past
the sequence length, and then emits `(cv, gate, sync)` for the sample. -/

structure GridSequencerModule where
  sequence : List (Option (Nat × Bool))
  octaves : Nat
  steps_per_octave : Nat
  current_step : Nat
  transition_detector : TransitionDetector
  sync_transition_detector : TransitionDetector
  last : ℚ
deriving DecidableEq, Repr

/-- One loop iteration of `GridSequencerModule::calc` (one sample): returns
`((cv_out, gate_out, sync_out), updated module)`. `sequence[current_step]` is
read with `getD _ none`; the index is in range whenever the sequence is
non-empty (the UI keeps `2 ≤ len ≤ 64`), matching the source's slice index. -/
def GridSequencerModule.step (m : GridSequencerModule) (step_in sync_in : ℚ) :
    (ℚ × ℚ × ℚ) × GridSequencerModule :=
  let (t1, td2) := m.transition_detector.is_transition step_in
  let cs1 := if t1 then m.current_step + 1 else m.current_step
  let (t2, sd2) := m.sync_transition_detector.is_transition sync_in
  let cs2 := if t2 then 0 else cs1
  let cs3 := if cs2 ≥ m.sequence.length then 0 else cs2
  let (cv, gate) :=
    match m.sequence.getD cs3 none with
    | some (val, hold) =>
      ((val : ℚ) * (1 / (m.steps_per_octave : ℚ)), if hold then 1 else step_in)
    | none => (m.last, 0)
  let sync : ℚ := if cs3 = 0 then 1 else 0
  ((cv, gate, sync),
    { m with
      current_step := cs3
      transition_detector := td2
      sync_transition_detector := sd2
      last := cv })

/-- Stateful run of the sequencer over resolved `(step_in, sync_in)` pairs. -/
def gridRun : GridSequencerModule → List (ℚ × ℚ) →
    List (ℚ × ℚ × ℚ) × GridSequencerModule
  | m, [] => ([], m)
  | m, (a, b) :: rest =>
    let (out, m2) := m.step a b
    let (outs, mFinal) := gridRun m2 rest
    (out :: outs, mFinal)

/-- Mirrors `GridSequencerModule::calc`: resolve the two input buffers (an
unconnected input reads `0.0` at every index) and run over the block. -/
def GridSequencerModule.calc (m : GridSequencerModule)
    (step_in_buf sync_in_buf : Option (List ℚ)) (len : Nat) :
    List (ℚ × ℚ × ℚ) × GridSequencerModule :=
  gridRun m (blockInputs step_in_buf sync_in_buf len)

/-! ### SampleModule (src/synth/sample.rs)

State: a transition detector on the gate, a fractional play position and a
`playing` flag; the loaded wave data is `samples` at rate `wav_rate`. The
per-sample position advance is `wav_rate / dev_rate * 2^cv`; `2^(·)` (the
source's `2.0_f32.powf`) is passed in as the function `pow2`. `pos as usize`
truncates toward zero and saturates at 0 for negatives, i.e. `⌊pos⌋.toNat`. -/

structure SampleState where
  transition_detector : TransitionDetector
  pos : ℚ
  playing : Bool
deriving DecidableEq, Repr

def ratFloorNat (q : ℚ) : Nat := q.floor.toNat

/-- One loop iteration of `SampleModule::calc` (one sample): gate rising edge
restarts playback; a position past the end resets it and stops; the output is
`samples[pos as usize]` when the buffer is non-empty, else 0; when playing the
position advances by `wav_rate / dev_rate * 2^cv`. -/
def SampleModule.step (pow2 : ℚ → ℚ) (samples : List ℚ)
    (wav_rate dev_rate : ℚ) (s : SampleState) (gate cv : ℚ) :
    ℚ × SampleState :=
  let (trigger, td2) := s.transition_detector.is_transition gate
  let (pos1, playing1) := if trigger then ((0 : ℚ), true) else (s.pos, s.playing)
  let (pos2, playing2) :=
    if ratFloorNat pos1 ≥ samples.length then ((0 : ℚ), false)
    else (pos1, playing1)
  let out := if samples.length > 0 then samples.getD (ratFloorNat pos2) 0 else 0
  let pos3 :=
    if playing2 then pos2 + wav_rate / dev_rate * pow2 cv else pos2
  (out, ⟨td2, pos3, playing2⟩)

/-- Stateful run of the sample player over resolved `(gate, cv)` pairs. -/
def sampleRun (pow2 : ℚ → ℚ) (samples : List ℚ) (wav_rate dev_rate : ℚ) :
    SampleState → List (ℚ × ℚ) → List ℚ × SampleState
  | s, [] => ([], s)
  | s, (g, c) :: rest =>
    let (out, s2) := SampleModule.step pow2 samples wav_rate dev_rate s g c
    let (outs, sFinal) := sampleRun pow2 samples wav_rate dev_rate s2 rest
    (out :: outs, sFinal)

/-- Mirrors `SampleModule::calc` in the steady state (wave data loaded, lock
uncontended, `new` flag already consumed): resolve the gate and cv buffers
(an unconnected input reads `0.0`) and run over the block. -/
def SampleModule.calc (pow2 : ℚ → ℚ) (samples : List ℚ)
    (wav_rate dev_rate : ℚ) (s : SampleState)
    (gate_in cv_in : Option (List ℚ)) (len : Nat) : List ℚ × SampleState :=
  sampleRun pow2 samples wav_rate dev_rate s
    (blockInputs gate_in cv_in len)

/-! ### Execution planner (src/synth.rs lines 86-148, `plan_execution`)

Modules are identified by natural numbers (standing for the `Arc` pointers
compared with `Arc::ptr_eq`); the graph `G` maps a module to its input slots
(`get_inputs`: one `Option` per slot, `none` when unconnected — the source
port of a connection is irrelevant to the planner). The execution list holds
`(module, searched)` pairs. The source's unbounded `loop` is modelled with
explicit fuel; `plan_execution` supplies fuel `n + all_modules.length + 1`,
which theorem `planLoop_total` below shows is enough for any graph whose
nodes are bounded by `n`, so the `Option` never comes out `none` there. -/

def firstUnsearched : List (Nat × Bool) → Option (Nat × Nat)
  | [] => none
  | (v, s) :: rest =>
    if s then (firstUnsearched rest).map (fun p => (p.1 + 1, p.2))
    else some (0, v)

/-- One input slot of the `to_concat` accumulation: a connected input that is
neither already in the execution list nor already collected is appended. -/
def tcStep (exec : List (Nat × Bool)) (acc : List (Nat × Bool))
    (inp : Option Nat) : List (Nat × Bool) :=
  match inp with
  | none => acc
  | some u =>
    if (exec.any fun e => e.1 = u) || (acc.any fun e => e.1 = u) then acc
    else acc ++ [(u, false)]

/-- The `to_concat` accumulation for one searched module: walk its input
slots in order and collect inputs that are neither already in the execution
list nor already collected (compare `plan_execution`'s inner `for` loop). -/
def buildToConcat (exec : List (Nat × Bool)) (inputs : List (Option Nat)) :
    List (Nat × Bool) :=
  inputs.foldl (tcStep exec) []

/-- The planner loop. An iteration either searches the first unsearched entry
(appending its fresh inputs and marking it searched) or pops the last element
of `all_modules`, appending it when it is not already listed; the loop ends
when everything is searched and `all_modules` is exhausted. -/
def planLoop (G : Nat → List (Option Nat)) :
    Nat → List (Nat × Bool) → List Nat → Option (List (Nat × Bool))
  | 0, _, _ => none
  | fuel + 1, exec, rest =>
    match firstUnsearched exec with
    | some (i, v) =>
      planLoop G fuel (exec.set i (v, true) ++ buildToConcat exec (G v)) rest
    | none =>
      match rest with
      | [] => some exec
      | _ :: _ =>
        let m := rest.getLast!
        let exec2 :=
          if exec.any fun e => e.1 = m then exec else exec ++ [(m, false)]
        planLoop G fuel exec2 rest.dropLast

/-- Mirrors `plan_execution`: start from the output module, run the loop, and
return the reversed execution list. `n` is a bound on the node identifiers
(used only to size the fuel). -/
def plan_execution (G : Nat → List (Option Nat)) (n : Nat) (output : Nat)
    (all_modules : List Nat) : Option (List Nat) :=
  (planLoop G (n + all_modules.length + 1) [(output, false)] all_modules).map
    (fun exec => (exec.map (fun e => e.1)).reverse)

/-- Edge relation of the planner's graph: `planEdge G u v` holds when module
`v` holds module `u` in one of its input slots (`u` feeds `v`). -/
def planEdge (G : Nat → List (Option Nat)) (u v : Nat) : Prop :=
  some u ∈ G v

/-- An edge `u → v` lies on a cycle exactly when `u` is again reachable from
`v` along edges; `onCycle` states that reachability. -/
def onCycle (G : Nat → List (Option Nat)) (u v : Nat) : Prop :=
  planEdge G u v ∧ Relation.ReflTransGen (planEdge G) v u

/-! ### Workspace persistence (src/ui.rs)

`SModule` is the per-module state that matters to the patch codec: stable
identity, catalog name, persisted parameter fields and the input slots (a
slot holds `(source module id, source port)`; the source code stores an `Arc`
and translates it to the id through a by-address map, which coincides with
storing the id whenever module ids are distinct). -/

structure SModule where
  id : Nat
  name : String
  params : List ℚ
  inputs : List (Option (Nat × Nat))
deriving DecidableEq, Repr

/-- Mirrors `disconnect_inputs` (called by `deserialize` step 1): every input
slot becomes unconnected. -/
def SModule.disconnect_inputs (m : SModule) : SModule :=
  { m with inputs := m.inputs.map fun _ => none }

/-- Mirrors the generic `set_input` used by `unpack_connections`: writing an
out-of-range slot returns an error (`none` here); the caller discards it. -/
def SModule.set_input (m : SModule) (idx : Nat) (src : Nat × Nat) :
    Option SModule :=
  if idx < m.inputs.length then
    some { m with inputs := m.inputs.set idx (some src) }
  else none

structure ModuleRecord where
  id : Nat
  name : String
  params : List ℚ
  numInputs : Nat
deriving DecidableEq, Repr

/-- Modelled from the spec: the per-module tagged-variant serialization hook
(`synth::SynthModuleType` and `any_module_to_enum`, which are not under
`src/`). Each record carries the module's identity, catalog tag and persisted
parameter fields; input-slot references are not embedded (`#[serde(skip)]`).
-/
def SModule.to_record (m : SModule) : ModuleRecord :=
  ⟨m.id, m.name, m.params, m.inputs.length⟩

/-- Modelled from the spec: `enum_to_sharedsynthmodule` followed by
`set_audio_config` (both not under `src/`) — a module rebuilt from its record
has the recorded identity, catalog tag and parameters, and every input slot
unconnected; `set_audio_config` only reshapes audio buffers. -/
def ModuleRecord.to_module (r : ModuleRecord) : SModule :=
  ⟨r.id, r.name, r.params, List.replicate r.numInputs none⟩

/-- Mirrors `FileFormat` (src/ui.rs lines 577-585): modules, connections as
`(src_id, src_port, sink_id, sink_port)` tuples, and positions by module id.
-/
structure FileFormat where
  modules : List ModuleRecord
  connections : List (Nat × Nat × Nat × Nat)
  positions : List (Nat × (ℚ × ℚ))
deriving DecidableEq, Repr

/-- Mirrors `FileFormat::capture_pos`: one entry per module whose position
lookup succeeds, in module order. -/
def capture_pos (modules : List SModule) (get_pos : Nat → Option (ℚ × ℚ)) :
    List (Nat × (ℚ × ℚ)) :=
  modules.filterMap fun m => (get_pos m.id).map fun p => (m.id, p)

/-- Mirrors `FileFormat::capture_connections`: for every module in order, one
tuple per filled input slot. -/
def capture_connections (modules : List SModule) :
    List (Nat × Nat × Nat × Nat) :=
  modules.flatMap fun m =>
    m.inputs.enum.filterMap fun e =>
      e.2.map fun sc => (sc.1, sc.2, m.id, e.1)

/-- The per-module effect of one connection record
`c = (src_id, src_port, sink_id, sink_port)`: the module whose id is the
sink id gets `set_input sink_port (src_id, src_port)` (an out-of-range port
error is discarded, `let _ = ...` in the source); other modules are
untouched. -/
def updConn (c : Nat × Nat × Nat × Nat) (m : SModule) : SModule :=
  if m.id = c.2.2.1 then (m.set_input c.2.2.2 (c.1, c.2.1)).getD m else m

/-- Mirrors one iteration of `FileFormat::unpack_connections`: when both
endpoint ids resolve, `set_input` on the sink module (errors discarded). The
source looks the sink up in a `HashMap` keyed by id; with distinct ids that
is the unique module with that id, written here as a guarded map. -/
def applyConn (mods : List SModule) (c : Nat × Nat × Nat × Nat) :
    List SModule :=
  if (mods.any fun m => m.id = c.2.2.1) && (mods.any fun m => m.id = c.1) then
    mods.map (updConn c)
  else mods

/-- Position map lookup: `modules_pos` is the association list whose first
match wins (the `HashMap` is filled by popping the positions vector from the
end, so the earliest list entry is the last insert and wins). -/
def lookupPos (l : List (Nat × (ℚ × ℚ))) (k : Nat) : Option (ℚ × ℚ) :=
  (l.find? fun e => e.1 = k).map fun e => e.2

/-- Mirrors `SynthModuleWorkspaceImpl` state that the codec touches: the
module list, the persisted position map, the load generation and the current
plan (by module id). -/
structure SynthModuleWorkspaceImpl where
  modules : List SModule
  modules_pos : List (Nat × (ℚ × ℚ))
  loads : Nat
  plan : List Nat
deriving DecidableEq, Repr

/-- Mirrors `SynthModuleWorkspaceImpl::serialize`: capture modules,
connections and positions into a `FileFormat` (the byte encoding itself is
the external `rmp_serde` layer, modelled as the identity on `FileFormat`). -/
def SynthModuleWorkspaceImpl.serialize (w : SynthModuleWorkspaceImpl)
    (get_pos : Nat → Option (ℚ × ℚ)) : FileFormat :=
  ⟨w.modules.map SModule.to_record, capture_connections w.modules,
    capture_pos w.modules get_pos⟩

/-- Mirrors `SynthModuleWorkspaceImpl::deserialize`; `parsed` is the result
of the external `rmp_serde` decode of the payload (`Err` for a truncated or
malformed payload). Step order as in the source: disconnect the old modules'
inputs, bump the load generation, clear the module list, then parse; on a
parse failure `?` returns with exactly that much mutated. On success the
position map is rebuilt, the records are popped into modules (reversing
them), the connections are popped and applied, and the plan is recomputed
(`self.plan()`, abstracted as `replan`). Returns the new state and a success
flag. -/
def SynthModuleWorkspaceImpl.deserialize (replan : List SModule → List Nat)
    (w : SynthModuleWorkspaceImpl) (parsed : Except Unit FileFormat) :
    SynthModuleWorkspaceImpl × Bool :=
  -- step 1 disconnects every input of the old modules
  -- (`SModule.disconnect_inputs`) and `self.modules.clear()` then drops them,
  -- so the workspace field afterwards is the empty list.
  let w1 : SynthModuleWorkspaceImpl :=
    { w with
      modules := (w.modules.map SModule.disconnect_inputs).filter fun _ => false
      loads := w.loads + 1 }
  match parsed with
  | .error _ => (w1, false)
  | .ok ff =>
    let w2 := { w1 with modules_pos := ff.positions }
    let mods := (ff.modules.map ModuleRecord.to_module).reverse
    let mods2 := ff.connections.reverse.foldl applyConn mods
    ({ w2 with modules := mods2, plan := replan mods2 }, true)

/-! ### Helper definitions for the planner proofs and counterexamples -/

/-- Module identifiers carried by an execution list. -/
def execIds (l : List (Nat × Bool)) : List Nat := l.map fun e => e.1

/-- Number of entries not yet searched. -/
def unsearchedCount (l : List (Nat × Bool)) : Nat :=
  (l.filter fun e => !e.2).length

/-- Loop variant for `planLoop`: one planner iteration decreases it by one. -/
def planMeasure (n : Nat) (exec : List (Nat × Bool)) (rest : List Nat) :
    Nat :=
  (n - exec.length) + unsearchedCount exec + rest.length

/-- Concrete acyclic four-module graph: module 0 (the output) has inputs 1 and
2, module 2 has input 3, module 3 has input 1, module 1 has none. The edge
`1 → 3` is acyclic, yet module 1 is discovered in the first breadth-first
layer and module 3 only in the second, so the reversed discovery order
schedules 3 before 1. -/
def G4 : Nat → List (Option Nat)
  | 0 => [some 1, some 2]
  | 2 => [some 3]
  | 3 => [some 1]
  | _ => []

/-- Height function witnessing that `G4` is acyclic (strictly increasing
along every edge). -/
def G4height : Nat → Nat
  | 1 => 0
  | 3 => 1
  | 2 => 2
  | _ => 3

/-! ## Theorems -/

/-- Claim C2 (counterexample): the fresh-detector sample sequence
{0, 0.1, 0.1, 0, 0.5} does not yield {false, false, false, false, true}:
after the first 0 sample `last` is false, so the 0.1 at index 1 is a
transition. -/
theorem transition_detector_sequence_cx :
    ¬ (TransitionDetector.new.last = true ∧
        runDetector TransitionDetector.new [0, 1/10, 1/10, 0, 1/2] =
          [false, false, false, false, true]) := by
  norm_num [runDetector, TransitionDetector.is_transition, is_above_threshold,
    TransitionDetector.new]

/-- Claim C2 (amended): a freshly constructed TransitionDetector has
`last = true`, and feeding {0, 0.1, 0.1, 0, 0.5} through `is_transition`
returns {false, true, false, false, true} — the rise from 0 to 0.1 at index 1
fires because the first 0 sample stored `last = false`. -/
theorem transition_detector_sequence :
    TransitionDetector.new.last = true ∧
    runDetector TransitionDetector.new [0, 1/10, 1/10, 0, 1/2] =
      [false, true, false, false, true] := by
  norm_num [runDetector, TransitionDetector.is_transition, is_above_threshold,
    TransitionDetector.new]

/-- Claim C4: out-of-range structural operations on `OutputModule` (two
channels here). `set_input`, `disconnect_input`, `get_output` and `get_input`
beyond `num_inputs` return errors, but `get_input` at exactly
`num_inputs = 2` passes the `idx > len` guard and indexes the slot array out
of bounds — a panic, not the error the spec requires. -/
theorem output_get_input_at_num_inputs :
    (OutputModule.mk [none, none]).get_input 2 = CallResult.panicked ∧
    (OutputModule.mk [none, none]).get_input 2 ≠ CallResult.err ∧
    (OutputModule.mk [none, none]).get_input 3 = CallResult.err ∧
    (OutputModule.mk [none, none]).set_input 2 (0, 0) = CallResult.err ∧
    (OutputModule.mk [none, none]).disconnect_input 2 = CallResult.err ∧
    (OutputModule.mk [none, none]).get_output 0 = CallResult.err := by
  decide

/-- Claim C10: when the Math module's first input is unconnected, `calc`
treats it as the constant 0: each output sample is `operation 0 (in2[i])`
when the second input is connected and `operation 0 constant` when both are
unconnected; in particular a Subtract module with only the second input
connected negates that input. -/
theorem math_first_input_unconnected (m : MathModule) (c : ℚ) (b : List ℚ)
    (len idx : Nat) (h : idx < len) :
    (MathModule.calc m none (some b) len)[idx]? =
      some (m.operation 0 b[idx]!) ∧
    (MathModule.calc m none none len)[idx]? =
      some (m.operation 0 m.constant) ∧
    (MathModule.calc ⟨c, MathOperation.subtract⟩ none (some b) len)[idx]? =
      some (-(b[idx]!)) := by
  unfold MathModule.calc
  simp [List.getElem?_map, List.getElem?_range, h, MathModule.operation]

/-- Witness for C10 at a concrete Subtract/Add instance. -/
theorem math_first_input_unconnected_witness :
    (MathModule.calc ⟨5, MathOperation.add⟩ none (some [2, 3]) 2)[1]? =
      some ((MathModule.mk 5 MathOperation.add).operation 0
        (([2, 3] : List ℚ)[1]!)) ∧
    (MathModule.calc ⟨5, MathOperation.add⟩ none none 2)[1]? =
      some ((MathModule.mk 5 MathOperation.add).operation 0
        (MathModule.mk 5 MathOperation.add).constant) ∧
    (MathModule.calc ⟨5, MathOperation.subtract⟩ none (some [2, 3]) 2)[1]? =
      some (-(([2, 3] : List ℚ)[1]!)) :=
  math_first_input_unconnected ⟨5, MathOperation.add⟩ 5 [2, 3] 2 1
    (by decide)

/-- Claim C5 (counterexample): a workspace holding one module, fed a payload
that fails to decode, does not keep that module: the module list was cleared
before the parse, so after the failed load it is empty. -/
theorem deserialize_failure_cx :
    ((SynthModuleWorkspaceImpl.deserialize (fun _ => [])
        ⟨[⟨7, "Oscillator", [0], [none, none]⟩], [], 0, [7]⟩
        (.error ())).1).modules = [] ∧
    ([⟨7, "Oscillator", [0], [none, none]⟩] : List SModule) ≠ [] := by
  constructor
  · rfl
  · intro h; cases h

/-- Claim C5 (amended): when deserialization of a patch fails, the workspace
is left with the pre-existing modules disconnected and removed (the module
list is empty — they are not still present), the load generation incremented,
and the position map and plan untouched; nothing from the failed payload is
added. -/
theorem deserialize_failure_state (replan : List SModule → List Nat)
    (w : SynthModuleWorkspaceImpl) (e : Unit) :
    SynthModuleWorkspaceImpl.deserialize replan w (.error e) =
      ({ w with modules := [], loads := w.loads + 1 }, false) := by
  simp [SynthModuleWorkspaceImpl.deserialize]

theorem neg_one_le_moogClamp (x : ℚ) : -1 ≤ moogClamp x := le_max_right _ _

theorem moogClamp_le_one (x : ℚ) : moogClamp x ≤ 1 := by
  unfold moogClamp
  exact max_le (le_trans (min_le_right _ _) le_rfl) (by norm_num)

/-- Every accumulator of the post-update filter state is clamped into
[-1, 1] (`clamp_buffers` runs last in `InternalMoogFilterState::calc`). -/
theorem moog_calc_state_bounds (s : InternalMoogFilterState)
    (input frequency res : ℚ) :
    (-1 ≤ ((s.calc input frequency res).2).b0 ∧
      ((s.calc input frequency res).2).b0 ≤ 1) ∧
    (-1 ≤ ((s.calc input frequency res).2).b1 ∧
      ((s.calc input frequency res).2).b1 ≤ 1) ∧
    (-1 ≤ ((s.calc input frequency res).2).b2 ∧
      ((s.calc input frequency res).2).b2 ≤ 1) ∧
    (-1 ≤ ((s.calc input frequency res).2).b3 ∧
      ((s.calc input frequency res).2).b3 ≤ 1) ∧
    (-1 ≤ ((s.calc input frequency res).2).b4 ∧
      ((s.calc input frequency res).2).b4 ≤ 1) := by
  simp only [InternalMoogFilterState.calc]
  exact ⟨⟨neg_one_le_moogClamp _, moogClamp_le_one _⟩,
    ⟨neg_one_le_moogClamp _, moogClamp_le_one _⟩,
    ⟨neg_one_le_moogClamp _, moogClamp_le_one _⟩,
    ⟨neg_one_le_moogClamp _, moogClamp_le_one _⟩,
    ⟨neg_one_le_moogClamp _, moogClamp_le_one _⟩⟩

/-- The lowpass output of one filter step is the clamped `b[4]` of the new
state. -/
theorem moog_calc_lowpass_eq (s : InternalMoogFilterState)
    (input frequency res : ℚ) :
    ((s.calc input frequency res).1).1 = ((s.calc input frequency res).2).b4 :=
  rfl

theorem moogRun_lowpass_mem (freq res exp_amt : ℚ) :
    ∀ (l : List (ℚ × ℚ)) (st : InternalMoogFilterState) (out : ℚ × ℚ × ℚ),
      out ∈ (moogRun freq res exp_amt st l).1 → -1 ≤ out.1 ∧ out.1 ≤ 1 := by
  intro l
  induction l with
  | nil => intro st out h; simp [moogRun] at h
  | cons hd tl ih =>
    intro st out h
    obtain ⟨a, c⟩ := hd
    simp only [moogRun, List.mem_cons] at h
    rcases h with h | h
    · subst h
      rw [moog_calc_lowpass_eq]
      have := moog_calc_state_bounds st a
        (min (max (freq + c * exp_amt) 0) (9/10)) (min (max res 0) 1)
      exact this.2.2.2.2
    · exact ih _ _ h

theorem moogRun_length (freq res exp_amt : ℚ) :
    ∀ (l : List (ℚ × ℚ)) (st : InternalMoogFilterState),
      (moogRun freq res exp_amt st l).1.length = l.length := by
  intro l
  induction l with
  | nil => intro st; simp [moogRun]
  | cons hd tl ih =>
    intro st
    obtain ⟨a, c⟩ := hd
    simp [moogRun, ih]

/-- Claim C7: after every per-sample update of the Moog filter's state, each
of the five accumulators `b[0..4]` lies within [-1, 1]; consequently, for
every input signal (connected or not), every frequency parameter in [0, 0.9]
and resonance in [0, 1], every lowpass sample produced by
`MoogFilterModule::calc` has magnitude within [-2, 2], over blocks of any
length from any starting state. -/
theorem moog_lowpass_bounded (freq res exp_amt : ℚ)
    (_hf0 : 0 ≤ freq) (_hf1 : freq ≤ 9/10) (_hr0 : 0 ≤ res) (_hr1 : res ≤ 1) :
    (∀ (s : InternalMoogFilterState) (input frequency r : ℚ),
      (-1 ≤ ((s.calc input frequency r).2).b0 ∧
        ((s.calc input frequency r).2).b0 ≤ 1) ∧
      (-1 ≤ ((s.calc input frequency r).2).b1 ∧
        ((s.calc input frequency r).2).b1 ≤ 1) ∧
      (-1 ≤ ((s.calc input frequency r).2).b2 ∧
        ((s.calc input frequency r).2).b2 ≤ 1) ∧
      (-1 ≤ ((s.calc input frequency r).2).b3 ∧
        ((s.calc input frequency r).2).b3 ≤ 1) ∧
      (-1 ≤ ((s.calc input frequency r).2).b4 ∧
        ((s.calc input frequency r).2).b4 ≤ 1)) ∧
    (∀ (audio_in cv_in : Option (List ℚ)) (len : Nat)
      (st : InternalMoogFilterState) (out : ℚ × ℚ × ℚ),
      out ∈ (MoogFilterModule.calc freq res exp_amt audio_in cv_in len st).1 →
      -2 ≤ out.1 ∧ out.1 ≤ 2) := by
  refine ⟨fun s input frequency r => moog_calc_state_bounds s input frequency r,
    fun audio_in cv_in len st out h => ?_⟩
  have := moogRun_lowpass_mem freq res exp_amt _ st out h
  constructor <;> linarith [this.1, this.2]

/-- Witness for C7: the single lowpass sample of a one-sample block at
`freq = res = exp_amt = 1/2` from the default state is within [-2, 2]. -/
theorem moog_lowpass_bounded_witness :
    -2 ≤ ((MoogFilterModule.calc (1/2) (1/2) (1/2) none none 1
        InternalMoogFilterState.default).1[0]!).1 ∧
      ((MoogFilterModule.calc (1/2) (1/2) (1/2) none none 1
        InternalMoogFilterState.default).1[0]!).1 ≤ 2 := by
  have hlen : (MoogFilterModule.calc (1/2) (1/2) (1/2) none none 1
      InternalMoogFilterState.default).1.length = 1 := by
    unfold MoogFilterModule.calc
    rw [moogRun_length]
    simp [blockInputs]
  have hmem : (MoogFilterModule.calc (1/2) (1/2) (1/2) none none 1
      InternalMoogFilterState.default).1[0]! ∈
      (MoogFilterModule.calc (1/2) (1/2) (1/2) none none 1
        InternalMoogFilterState.default).1 := by
    rw [getElem!_pos _ 0 (by omega)]
    exact List.getElem_mem _
  exact (moog_lowpass_bounded (1/2) (1/2) (1/2) (by norm_num) (by norm_num)
    (by norm_num) (by norm_num)).2 none none 1 InternalMoogFilterState.default
    _ hmem

/-- Scan lemma: the block output at index `idx` is the step function applied
to the state obtained by running the first `idx` samples. -/
theorem gridRun_getElem (ins : List (ℚ × ℚ)) :
    ∀ (m : GridSequencerModule) (idx : Nat) (h : idx < ins.length),
      (gridRun m ins).1[idx]? =
        some ((gridRun m (ins.take idx)).2.step (ins.get ⟨idx, h⟩).1
          (ins.get ⟨idx, h⟩).2).1 := by
  induction ins with
  | nil => intro m idx h; simp at h
  | cons hd tl ih =>
    intro m idx h
    obtain ⟨a, b⟩ := hd
    match idx with
    | 0 =>
      simp [gridRun]
    | j + 1 =>
      have hj : j < tl.length := by simpa using h
      have h1 : (gridRun m ((a, b) :: tl)).1 =
          ((m.step a b).1) :: (gridRun (m.step a b).2 tl).1 := by
        simp [gridRun]
      rw [h1]
      simp only [List.getElem?_cons_succ, List.take_succ_cons, List.get_cons_succ]
      rw [ih (m.step a b).2 j hj]
      congr 2

theorem take_blockInputs (a b : Option (List ℚ)) (len idx : Nat)
    (h : idx ≤ len) :
    (blockInputs a b len).take idx = blockInputs a b idx := by
  unfold blockInputs
  rw [← List.map_take, List.take_range, Nat.min_eq_left h]

theorem blockInputs_get (a b : Option (List ℚ)) (len idx : Nat)
    (h : idx < (blockInputs a b len).length) :
    (blockInputs a b len).get ⟨idx, h⟩ =
      ((resolveAt a idx).getD 0, (resolveAt b idx).getD 0) := by
  unfold blockInputs
  simp

theorem blockInputs_length (a b : Option (List ℚ)) (len : Nat) :
    (blockInputs a b len).length = len := by
  simp [blockInputs]

/-- Case analysis of one sequencer sample, read off `GridSequencerModule.step`:
the cell addressed by the post-advance current step decides `(cv, gate)`, the
sync output flags step 0, and `last` latches the emitted CV. -/
theorem grid_step_cases (st : GridSequencerModule) (a b : ℚ) :
    (∀ row, st.sequence.getD ((st.step a b).2).current_step none =
        some (row, true) →
      ((st.step a b).1).2.1 = 1 ∧
      ((st.step a b).1).1 = (row : ℚ) * (1 / (st.steps_per_octave : ℚ))) ∧
    (∀ row, st.sequence.getD ((st.step a b).2).current_step none =
        some (row, false) →
      ((st.step a b).1).2.1 = a ∧
      ((st.step a b).1).1 = (row : ℚ) * (1 / (st.steps_per_octave : ℚ))) ∧
    (st.sequence.getD ((st.step a b).2).current_step none = none →
      ((st.step a b).1).2.1 = 0 ∧ ((st.step a b).1).1 = st.last) ∧
    (((st.step a b).1).2.2 =
      if ((st.step a b).2).current_step = 0 then 1 else 0) ∧
    ((st.step a b).2).last = ((st.step a b).1).1 := by
  simp only [GridSequencerModule.step]
  refine ⟨?_, ?_, ?_, ?_, ?_⟩
  · intro row hcell
    rw [hcell]
    exact ⟨rfl, rfl⟩
  · intro row hcell
    rw [hcell]
    exact ⟨rfl, rfl⟩
  · intro hcell
    rw [hcell]
    exact ⟨rfl, rfl⟩
  · trivial
  · trivial

/-- Claim C9: for every block computed by `GridSequencerModule::calc` and
every sample index in the block, the output triple at that index is the
per-sample step applied to the state reached after the earlier samples
(first conjunct), and that per-sample step satisfies: a held cell outputs
gate 1.0, a gated cell passes the step input through, an empty cell outputs
gate 0.0 and holds the previous CV (`last`, which the final conjunct shows is
always the previously emitted CV, i.e. the last non-empty step's
`row / steps_per_octave`), and the sync output is 1.0 exactly on step 0. -/
theorem grid_sequencer_outputs (m : GridSequencerModule)
    (step_in_buf sync_in_buf : Option (List ℚ)) (len idx : Nat)
    (h : idx < len) :
    (GridSequencerModule.calc m step_in_buf sync_in_buf len).1[idx]? =
      some (((gridRun m (blockInputs step_in_buf sync_in_buf idx)).2).step
        ((resolveAt step_in_buf idx).getD 0)
        ((resolveAt sync_in_buf idx).getD 0)).1 ∧
    (∀ (st : GridSequencerModule) (a b : ℚ),
      (∀ row, st.sequence.getD ((st.step a b).2).current_step none =
          some (row, true) →
        ((st.step a b).1).2.1 = 1 ∧
        ((st.step a b).1).1 = (row : ℚ) * (1 / (st.steps_per_octave : ℚ))) ∧
      (∀ row, st.sequence.getD ((st.step a b).2).current_step none =
          some (row, false) →
        ((st.step a b).1).2.1 = a ∧
        ((st.step a b).1).1 = (row : ℚ) * (1 / (st.steps_per_octave : ℚ))) ∧
      (st.sequence.getD ((st.step a b).2).current_step none = none →
        ((st.step a b).1).2.1 = 0 ∧ ((st.step a b).1).1 = st.last) ∧
      (((st.step a b).1).2.2 =
        if ((st.step a b).2).current_step = 0 then 1 else 0) ∧
      ((st.step a b).2).last = ((st.step a b).1).1) := by
  constructor
  · have hlen : idx < (blockInputs step_in_buf sync_in_buf len).length := by
      rw [blockInputs_length]; exact h
    unfold GridSequencerModule.calc
    rw [gridRun_getElem _ m idx hlen, blockInputs_get,
      take_blockInputs _ _ _ _ (Nat.le_of_lt h)]
  · exact fun st a b => grid_step_cases st a b

/-- Witness for C9: a two-step sequencer with a held cell on row 3, a
one-sample block, and a concrete step applied at gate 5. -/
theorem grid_sequencer_outputs_witness :
    (GridSequencerModule.calc
        ⟨[some (3, true), none], 2, 12, 0, ⟨true⟩, ⟨true⟩, 0⟩ none none 1).1[0]? =
      some (((gridRun ⟨[some (3, true), none], 2, 12, 0, ⟨true⟩, ⟨true⟩, 0⟩
          (blockInputs none none 0)).2).step
        ((resolveAt none 0).getD 0) ((resolveAt none 0).getD 0)).1 ∧
    (((GridSequencerModule.mk [some (3, true), none] 2 12 0 ⟨true⟩ ⟨true⟩ 0).step
        5 0).1).2.2 =
      (if (((GridSequencerModule.mk [some (3, true), none] 2 12 0 ⟨true⟩ ⟨true⟩
          0).step 5 0).2).current_step = 0 then 1 else 0) :=
  ⟨(grid_sequencer_outputs ⟨[some (3, true), none], 2, 12, 0, ⟨true⟩, ⟨true⟩, 0⟩
      none none 1 0 (by decide)).1,
    ((grid_sequencer_outputs ⟨[some (3, true), none], 2, 12, 0, ⟨true⟩, ⟨true⟩, 0⟩
      none none 1 0 (by decide)).2
      (GridSequencerModule.mk [some (3, true), none] 2 12 0 ⟨true⟩ ⟨true⟩ 0)
      5 0).2.2.2.1⟩

theorem ratFloorNat_natCast (k : Nat) : ratFloorNat (k : ℚ) = k := by
  unfold ratFloorNat
  rw [Rat.floor_def']
  simp

theorem sampleRun_append (pow2 : ℚ → ℚ) (samples : List ℚ) (wr dr : ℚ) :
    ∀ (l1 l2 : List (ℚ × ℚ)) (s : SampleState),
      sampleRun pow2 samples wr dr s (l1 ++ l2) =
        ((sampleRun pow2 samples wr dr s l1).1 ++
          (sampleRun pow2 samples wr dr
            (sampleRun pow2 samples wr dr s l1).2 l2).1,
          (sampleRun pow2 samples wr dr
            (sampleRun pow2 samples wr dr s l1).2 l2).2) := by
  intro l1
  induction l1 with
  | nil => intro l2 s; simp [sampleRun]
  | cons hd tl ih =>
    intro l2 s
    obtain ⟨g, c⟩ := hd
    simp [sampleRun, ih]

theorem sample_step_playing (pow2 : ℚ → ℚ) (samples : List ℚ) (R : ℚ)
    (hpow : pow2 0 = 1) (hR : R ≠ 0) (k : Nat) (hk : k < samples.length) :
    SampleModule.step pow2 samples R R ⟨⟨true⟩, (k : ℚ), true⟩ 1 0 =
      (samples.getD k 0, ⟨⟨true⟩, ((k + 1 : Nat) : ℚ), true⟩) := by
  simp only [SampleModule.step, TransitionDetector.is_transition,
    is_above_threshold]
  rw [show (decide ((1 : ℚ) > 0)) = true by norm_num]
  simp only [Bool.not_true, Bool.and_false, Bool.false_eq_true, if_false,
    ratFloorNat_natCast]
  rw [if_neg (show ¬ (k ≥ samples.length) by omega)]
  rw [if_pos (show samples.length > 0 by omega)]
  simp only [ratFloorNat_natCast, hpow, div_self hR, if_true]
  have hcast : (k : ℚ) + 1 * 1 = ((k + 1 : Nat) : ℚ) := by push_cast; ring
  rw [hcast]

theorem sample_step_trigger (pow2 : ℚ → ℚ) (samples : List ℚ) (R : ℚ)
    (hpow : pow2 0 = 1) (hR : R ≠ 0) (hlen : 0 < samples.length) :
    SampleModule.step pow2 samples R R ⟨⟨false⟩, 0, false⟩ 1 0 =
      (samples.getD 0 0, ⟨⟨true⟩, ((1 : Nat) : ℚ), true⟩) := by
  simp only [SampleModule.step, TransitionDetector.is_transition,
    is_above_threshold]
  rw [show (decide ((1 : ℚ) > 0)) = true by norm_num]
  simp only [Bool.not_false, Bool.and_self, if_true]
  rw [show ratFloorNat (0 : ℚ) = 0 by
    rw [show ((0 : ℚ)) = ((0 : Nat) : ℚ) by push_cast; ring, ratFloorNat_natCast]]
  rw [if_neg (show ¬ (0 ≥ samples.length) by omega)]
  rw [if_pos (show samples.length > 0 by omega)]
  simp only [hpow, div_self hR, if_true]
  rw [show ratFloorNat (0 : ℚ) = 0 by
    rw [show ((0 : ℚ)) = ((0 : Nat) : ℚ) by push_cast; ring, ratFloorNat_natCast]]
  have hcast : (0 : ℚ) + 1 * 1 = ((1 : Nat) : ℚ) := by push_cast; ring
  rw [hcast]

theorem sample_step_wrap (pow2 : ℚ → ℚ) (samples : List ℚ) (R : ℚ)
    (hlen : 0 < samples.length) :
    SampleModule.step pow2 samples R R
        ⟨⟨true⟩, ((samples.length : Nat) : ℚ), true⟩ 1 0 =
      (samples.getD 0 0, ⟨⟨true⟩, 0, false⟩) := by
  simp only [SampleModule.step, TransitionDetector.is_transition,
    is_above_threshold]
  rw [show (decide ((1 : ℚ) > 0)) = true by norm_num]
  simp only [Bool.not_true, Bool.and_false, Bool.false_eq_true, if_false,
    ratFloorNat_natCast]
  rw [if_pos (show samples.length ≥ samples.length by omega)]
  rw [if_pos (show samples.length > 0 by omega)]
  rw [show ratFloorNat (0 : ℚ) = 0 by
    rw [show ((0 : ℚ)) = ((0 : Nat) : ℚ) by push_cast; ring, ratFloorNat_natCast]]
  simp

theorem sampleRun_seg (pow2 : ℚ → ℚ) (samples : List ℚ) (R : ℚ)
    (hpow : pow2 0 = 1) (hR : R ≠ 0) :
    ∀ (j k : Nat), k + j ≤ samples.length →
      sampleRun pow2 samples R R ⟨⟨true⟩, (k : ℚ), true⟩
          (List.replicate j (1, 0)) =
        ((List.range j).map (fun t => samples.getD (k + t) 0),
          ⟨⟨true⟩, ((k + j : Nat) : ℚ), true⟩) := by
  intro j
  induction j with
  | zero => intro k hk; simp [sampleRun]
  | succ j ih =>
    intro k hk
    rw [List.replicate_succ]
    simp only [sampleRun]
    rw [sample_step_playing pow2 samples R hpow hR k (by omega)]
    rw [ih (k + 1) (by omega)]
    simp only [Prod.mk.injEq]
    constructor
    · rw [List.range_succ_eq_map]
      simp only [List.map_cons, List.map_map]
      rw [show k + 0 = k by omega]
      congr 1
      apply List.map_congr_left
      intro t ht
      simp only [Function.comp_apply]
      congr 1
      omega
    · congr 2
      omega

theorem blockInputs_gate_all_on :
    blockInputs (some (List.replicate 101 (1 : ℚ))) none 101 =
      List.replicate 101 ((1 : ℚ), (0 : ℚ)) := by
  apply List.eq_replicate_of_mem
  intro p hp
  unfold blockInputs at hp
  rw [List.mem_map] at hp
  obtain ⟨i, hi, hpe⟩ := hp
  rw [List.mem_range] at hi
  subst hpe
  simp only [resolveAt, Option.map_some', Option.map_none', Option.getD_some,
    Option.getD_none]
  rw [getElem!_pos _ _ (by simpa using hi)]
  rw [List.getElem_replicate]


theorem sampleRun_cons (pow2 : ℚ → ℚ) (samples : List ℚ) (wr dr : ℚ)
    (s : SampleState) (g c : ℚ) (rest : List (ℚ × ℚ)) :
    sampleRun pow2 samples wr dr s ((g, c) :: rest) =
      ((SampleModule.step pow2 samples wr dr s g c).1 ::
        (sampleRun pow2 samples wr dr
          (SampleModule.step pow2 samples wr dr s g c).2 rest).1,
        (sampleRun pow2 samples wr dr
          (SampleModule.step pow2 samples wr dr s g c).2 rest).2) := by
  simp [sampleRun]

theorem sampleRun_nil (pow2 : ℚ → ℚ) (samples : List ℚ) (wr dr : ℚ)
    (s : SampleState) :
    sampleRun pow2 samples wr dr s [] = ([], s) := rfl

/-- Full trace of `SampleModule::calc` over a 101-sample block with the gate
held high from a silent, non-playing start: the gate edge at sample 0 starts
playback at position 0; samples 0..99 output the buffer contents; at sample
100 the position has run past the end, so it resets, playback stops, and the
buffer is read at the reset position 0. -/
theorem sample_calc_trace (pow2 : ℚ → ℚ) (samples : List ℚ) (R : ℚ)
    (h100 : samples.length = 100) (hpow : pow2 0 = 1) (hR : R ≠ 0) :
    SampleModule.calc pow2 samples R R ⟨⟨false⟩, 0, false⟩
        (some (List.replicate 101 1)) none 101 =
      (samples.getD 0 0 ::
        (((List.range 99).map fun t => samples.getD (1 + t) 0) ++
          [samples.getD 0 0]),
        ⟨⟨true⟩, 0, false⟩) := by
  unfold SampleModule.calc
  rw [blockInputs_gate_all_on]
  rw [show (101 : Nat) = 1 + (99 + 1) by omega]
  rw [List.replicate_add, List.replicate_add]
  simp only [List.replicate_one, List.singleton_append, List.cons_append,
    List.nil_append]
  rw [sampleRun_cons]
  rw [sample_step_trigger pow2 samples R hpow hR (by omega)]
  rw [sampleRun_append pow2 samples R R (List.replicate 99 (1, 0)) [(1, 0)]]
  dsimp only
  rw [sampleRun_seg pow2 samples R hpow hR 99 1 (by omega)]
  simp only []
  rw [show ((1 + 99 : Nat) : ℚ) = ((samples.length : Nat) : ℚ) by rw [h100]]
  rw [sampleRun_cons]
  rw [sample_step_wrap pow2 samples R (by omega)]
  rw [sampleRun_nil]

/-- Claim C3 (amended): for a sample player holding a loaded 100-sample
buffer whose rate equals the (nonzero) device rate, with value 1.0 at index
0, after a gate rising edge with cv unconnected the output is 1.0 at the
first sample and the loaded values for the first 100 samples; at sample
index 100 the position resets and `playing` becomes false, but the output at
that sample is `buffer[0]` (= 1.0 here), because the reset to position 0
happens before the buffer read. -/
theorem sample_player_block (samples : List ℚ) (h100 : samples.length = 100)
    (h0 : samples.getD 0 0 = 1) (pow2 : ℚ → ℚ) (hpow : pow2 0 = 1)
    (R : ℚ) (hR : R ≠ 0) :
    (∀ i, i < 100 →
      (SampleModule.calc pow2 samples R R ⟨⟨false⟩, 0, false⟩
          (some (List.replicate 101 1)) none 101).1[i]? =
        some (samples.getD i 0)) ∧
    (SampleModule.calc pow2 samples R R ⟨⟨false⟩, 0, false⟩
        (some (List.replicate 101 1)) none 101).1[0]? = some 1 ∧
    (SampleModule.calc pow2 samples R R ⟨⟨false⟩, 0, false⟩
        (some (List.replicate 101 1)) none 101).1[100]? =
      some (samples.getD 0 0) ∧
    ((SampleModule.calc pow2 samples R R ⟨⟨false⟩, 0, false⟩
        (some (List.replicate 101 1)) none 101).2).playing = false := by
  rw [sample_calc_trace pow2 samples R h100 hpow hR]
  have hmaplen : ((List.range 99).map fun t => samples.getD (1 + t) 0).length
      = 99 := by simp
  refine ⟨?_, ?_, ?_, rfl⟩
  · intro i hi
    match i with
    | 0 => rw [List.getElem?_cons_zero]
    | t + 1 =>
      have ht : t < 99 := by omega
      rw [List.getElem?_cons_succ]
      rw [List.getElem?_append, if_pos (by omega)]
      rw [List.getElem?_map]
      rw [List.getElem?_range ht]
      simp only [Option.map_some']
      congr 2
      omega
  · rw [List.getElem?_cons_zero]
    rw [h0]
  · rw [List.getElem?_cons_succ]
    rw [List.getElem?_append_right (by omega)]
    rw [hmaplen]
    simp

/-- Claim C3 (counterexample): with the concrete buffer `1.0` followed by 99
zeros, the output at sample index 100 is 1.0 (= `buffer[0]`), not 0 as the
claim states. -/
theorem sample_player_sample100_cx :
    ¬ ((SampleModule.calc (fun _ => 1) ((1 : ℚ) :: List.replicate 99 0)
        48000 48000 ⟨⟨false⟩, 0, false⟩
        (some (List.replicate 101 1)) none 101).1[100]? = some 0) := by
  rw [sample_calc_trace (fun _ => 1) ((1 : ℚ) :: List.replicate 99 0) 48000
    (by simp) rfl (by norm_num)]
  rw [List.getElem?_cons_succ]
  rw [List.getElem?_append_right (by simp)]
  simp

/-- Witness for C3 at the concrete buffer `1.0 :: replicate 99 0`, device
rate 48000 and `pow2 0 = 1`. -/
theorem sample_player_block_witness :
    (SampleModule.calc (fun c => if c = 0 then 1 else 2)
        ((1 : ℚ) :: List.replicate 99 0) 48000 48000 ⟨⟨false⟩, 0, false⟩
        (some (List.replicate 101 1)) none 101).1[50]? =
      some (((1 : ℚ) :: List.replicate 99 0).getD 50 0) ∧
    (SampleModule.calc (fun c => if c = 0 then 1 else 2)
        ((1 : ℚ) :: List.replicate 99 0) 48000 48000 ⟨⟨false⟩, 0, false⟩
        (some (List.replicate 101 1)) none 101).1[100]? =
      some (((1 : ℚ) :: List.replicate 99 0).getD 0 0) ∧
    ((SampleModule.calc (fun c => if c = 0 then 1 else 2)
        ((1 : ℚ) :: List.replicate 99 0) 48000 48000 ⟨⟨false⟩, 0, false⟩
        (some (List.replicate 101 1)) none 101).2).playing = false := by
  have h := sample_player_block ((1 : ℚ) :: List.replicate 99 0) (by simp) rfl
    (fun c => if c = 0 then 1 else 2) (by simp) 48000 (by norm_num)
  exact ⟨h.1 50 (by omega), h.2.2.1, h.2.2.2⟩

theorem execIds_append (l1 l2 : List (Nat × Bool)) :
    execIds (l1 ++ l2) = execIds l1 ++ execIds l2 := List.map_append _ _ _

theorem mem_execIds {l : List (Nat × Bool)} {x : Nat} :
    x ∈ execIds l ↔ ∃ e ∈ l, e.1 = x := by
  unfold execIds
  simp only [List.mem_map]

theorem any_id_eq_true_iff (l : List (Nat × Bool)) (u : Nat) :
    (l.any fun e => e.1 = u) = true ↔ u ∈ execIds l := by
  rw [List.any_eq_true, mem_execIds]
  constructor
  · rintro ⟨e, he, hd⟩; exact ⟨e, he, by simpa using hd⟩
  · rintro ⟨e, he, hd⟩; exact ⟨e, he, by simpa using hd⟩

theorem length_le_of_nodup_bounded (n : Nat) (l : List Nat) (hd : l.Nodup)
    (hb : ∀ x ∈ l, x < n) : l.length ≤ n := by
  classical
  have h1 : l.toFinset.card = l.length := List.toFinset_card_of_nodup hd
  have h2 : l.toFinset ⊆ Finset.range n := by
    intro x hx
    rw [List.mem_toFinset] at hx
    exact Finset.mem_range.mpr (hb x hx)
  have := Finset.card_le_card h2
  rw [h1, Finset.card_range] at this
  exact this

theorem unsearchedCount_append (l1 l2 : List (Nat × Bool)) :
    unsearchedCount (l1 ++ l2) = unsearchedCount l1 + unsearchedCount l2 := by
  unfold unsearchedCount
  rw [List.filter_append, List.length_append]

theorem unsearchedCount_all_false (l : List (Nat × Bool))
    (h : ∀ e ∈ l, e.2 = false) : unsearchedCount l = l.length := by
  unfold unsearchedCount
  rw [List.filter_eq_self.mpr]
  intro e he
  simp [h e he]

theorem unsearchedCount_all_true (l : List (Nat × Bool))
    (h : ∀ e ∈ l, e.2 = true) : unsearchedCount l = 0 := by
  unfold unsearchedCount
  rw [List.length_eq_zero]
  rw [List.filter_eq_nil_iff]
  intro e he
  simp [h e he]

theorem firstUnsearched_none_iff (l : List (Nat × Bool)) :
    firstUnsearched l = none ↔ ∀ e ∈ l, e.2 = true := by
  induction l with
  | nil => simp [firstUnsearched]
  | cons hd tl ih =>
    obtain ⟨v, s⟩ := hd
    match s with
    | true => simp [firstUnsearched, ih, Option.map_eq_none']
    | false => simp [firstUnsearched]

theorem firstUnsearched_some (l : List (Nat × Bool)) (i v : Nat) :
    firstUnsearched l = some (i, v) →
      ∃ pre post, l = pre ++ (v, false) :: post ∧ pre.length = i ∧
        ∀ e ∈ pre, e.2 = true := by
  induction l generalizing i with
  | nil => intro h; simp [firstUnsearched] at h
  | cons hd tl ih =>
    obtain ⟨w, s⟩ := hd
    intro h
    match s with
    | false =>
      simp only [firstUnsearched] at h
      obtain ⟨hi, hv⟩ : 0 = i ∧ w = v := by
        constructor <;> [exact congrArg Prod.fst (Option.some.inj h);
          exact congrArg Prod.snd (Option.some.inj h)]
      exact ⟨[], tl, by rw [hv]; rfl, by rw [← hi]; rfl, by simp⟩
    | true =>
      simp only [firstUnsearched, if_true] at h
      rw [Option.map_eq_some'] at h
      obtain ⟨⟨i0, v0⟩, hfu, heq⟩ := h
      obtain ⟨hi, hv⟩ : i0 + 1 = i ∧ v0 = v := by
        constructor <;> [exact congrArg Prod.fst heq;
          exact congrArg Prod.snd heq]
      obtain ⟨pre, post, hl, hlen, hpre⟩ := ih i0 (by rw [hv] at hfu; exact hfu)
      refine ⟨(w, true) :: pre, post, by rw [hl]; rfl,
        by simp [hlen, ← hi], ?_⟩
      intro e he
      rcases List.mem_cons.mp he with he | he
      · rw [he]
      · exact hpre e he

theorem tcFold_props (exec : List (Nat × Bool)) (inputs : List (Option Nat)) :
    ∀ acc : List (Nat × Bool),
      (∀ e ∈ inputs.foldl (tcStep exec) acc,
        e ∈ acc ∨ (e.2 = false ∧ some e.1 ∈ inputs ∧ e.1 ∉ execIds exec)) ∧
      (∀ e ∈ acc, e ∈ inputs.foldl (tcStep exec) acc) ∧
      ((execIds acc).Nodup → (execIds (inputs.foldl (tcStep exec) acc)).Nodup) ∧
      (∀ u, some u ∈ inputs →
        u ∈ execIds exec ∨ u ∈ execIds (inputs.foldl (tcStep exec) acc)) := by
  induction inputs with
  | nil =>
    intro acc
    refine ⟨fun e he => Or.inl he, fun e he => he, fun h => h, ?_⟩
    intro u hu
    simp at hu
  | cons inp rest ih =>
    intro acc
    rw [List.foldl_cons]
    match inp with
    | none =>
      obtain ⟨ih1, ih2, ih3, ih4⟩ := ih acc
      rw [show tcStep exec acc none = acc from rfl]
      refine ⟨?_, ih2, ih3, ?_⟩
      · intro e he
        rcases ih1 e he with h | ⟨h1, h2, h3⟩
        · exact Or.inl h
        · exact Or.inr ⟨h1, List.mem_cons_of_mem _ h2, h3⟩
      · intro u hu
        rcases List.mem_cons.mp hu with hu | hu
        · exact absurd hu (by simp)
        · exact ih4 u hu
    | some u =>
      rw [show tcStep exec acc (some u) =
        (if (exec.any fun e => e.1 = u) || (acc.any fun e => e.1 = u) then acc
          else acc ++ [(u, false)]) from rfl]
      by_cases hc : ((exec.any fun e => e.1 = u) ||
          (acc.any fun e => e.1 = u)) = true
      · rw [if_pos hc]
        obtain ⟨ih1, ih2, ih3, ih4⟩ := ih acc
        refine ⟨?_, ih2, ih3, ?_⟩
        · intro e he
          rcases ih1 e he with h | ⟨h1, h2, h3⟩
          · exact Or.inl h
          · exact Or.inr ⟨h1, List.mem_cons_of_mem _ h2, h3⟩
        · intro w hw
          rcases List.mem_cons.mp hw with hw | hw
          · obtain hwu : w = u := by simpa using hw
            subst hwu
            rw [Bool.or_eq_true] at hc
            rcases hc with hc | hc
            · exact Or.inl ((any_id_eq_true_iff _ _).mp hc)
            · have hmem : w ∈ execIds acc := (any_id_eq_true_iff _ _).mp hc
              rw [mem_execIds] at hmem
              obtain ⟨e, he, hev⟩ := hmem
              exact Or.inr (mem_execIds.mpr ⟨e, ih2 e he, hev⟩)
          · exact ih4 w hw
      · rw [if_neg hc]
        obtain ⟨ih1, ih2, ih3, ih4⟩ := ih (acc ++ [(u, false)])
        rw [Bool.or_eq_true] at hc
        push_neg at hc
        obtain ⟨hc1, hc2⟩ := hc
        have hu1 : u ∉ execIds exec := fun h =>
          hc1 ((any_id_eq_true_iff _ _).mpr h)
        have hu2 : u ∉ execIds acc := fun h =>
          hc2 ((any_id_eq_true_iff _ _).mpr h)
        refine ⟨?_, ?_, ?_, ?_⟩
        · intro e he
          rcases ih1 e he with h | ⟨h1, h2, h3⟩
          · rcases List.mem_append.mp h with h | h
            · exact Or.inl h
            · obtain he2 : e = (u, false) := by simpa using h
              subst he2
              exact Or.inr ⟨rfl, by simp, hu1⟩
          · exact Or.inr ⟨h1, List.mem_cons_of_mem _ h2, h3⟩
        · intro e he
          exact ih2 e (List.mem_append_left _ he)
        · intro hnd
          apply ih3
          rw [execIds_append]
          apply List.Nodup.append hnd (by simp [execIds])
          intro x hx hx2
          obtain hxu : x = u := by simpa [execIds] using hx2
          subst hxu
          exact hu2 hx
        · intro w hw
          rcases List.mem_cons.mp hw with hw | hw
          · obtain hwu : w = u := by simpa using hw
            subst hwu
            refine Or.inr (mem_execIds.mpr ⟨(w, false), ?_, rfl⟩)
            exact ih2 (w, false) (List.mem_append_right _ (by simp))
          · exact ih4 w hw

theorem buildToConcat_props (exec : List (Nat × Bool))
    (inputs : List (Option Nat)) :
    (∀ e ∈ buildToConcat exec inputs,
      e.2 = false ∧ some e.1 ∈ inputs ∧ e.1 ∉ execIds exec) ∧
    (execIds (buildToConcat exec inputs)).Nodup ∧
    (∀ u, some u ∈ inputs →
      u ∈ execIds exec ∨ u ∈ execIds (buildToConcat exec inputs)) := by
  obtain ⟨h1, _h2, h3, h4⟩ := tcFold_props exec inputs []
  refine ⟨?_, h3 (by simp [execIds]), h4⟩
  intro e he
  rcases h1 e he with h | h
  · simp at h
  · exact h

theorem set_at_pre_length (pre post : List (Nat × Bool)) (v : Nat) (b c : Bool) :
    (pre ++ (v, b) :: post).set pre.length (v, c) = pre ++ (v, c) :: post := by
  induction pre with
  | nil => simp
  | cons hd tl ih => simp [List.set, ih]

theorem execIds_cons (e : Nat × Bool) (l : List (Nat × Bool)) :
    execIds (e :: l) = e.1 :: execIds l := rfl

theorem unsearchedCount_cons (e : Nat × Bool) (l : List (Nat × Bool)) :
    unsearchedCount (e :: l) =
      (if e.2 then 0 else 1) + unsearchedCount l := by
  obtain ⟨x, b⟩ := e
  match b with
  | true => simp [unsearchedCount, List.filter]
  | false =>
    simp [unsearchedCount, List.filter]
    omega

theorem getLast_bang_eq (l : List Nat) (h : l ≠ []) :
    l.getLast! = l.getLast h := by
  apply List.getLast!_of_getLast?
  rw [List.getLast?_eq_getLast _ h]

/-- Main induction for the planner loop: given the invariants (no duplicate
ids, all ids bounded, the remaining pop list bounded, every module of
`mods0` listed or still to pop, the output listed, and searched entries
closed under their inputs), the loop with fuel exceeding `planMeasure`
returns a fully-searched list preserving all of them. -/
theorem planLoop_main (G : Nat → List (Option Nat)) (n : Nat)
    (mods0 : List Nat) (output : Nat)
    (hG : ∀ v u, some u ∈ G v → u < n) :
    ∀ (fuel : Nat) (exec : List (Nat × Bool)) (rest : List Nat),
      planMeasure n exec rest < fuel →
      (execIds exec).Nodup →
      (∀ e ∈ exec, e.1 < n) →
      (∀ x ∈ rest, x < n) →
      (∀ x ∈ mods0, x ∈ execIds exec ∨ x ∈ rest) →
      output ∈ execIds exec →
      (∀ e ∈ exec, e.2 = true → ∀ u, some u ∈ G e.1 → u ∈ execIds exec) →
      ∃ res, planLoop G fuel exec rest = some res ∧
        (execIds res).Nodup ∧
        (∀ x ∈ mods0, x ∈ execIds res) ∧
        output ∈ execIds res ∧
        (∀ e ∈ res, e.2 = true) ∧
        (∀ e ∈ res, e.2 = true → ∀ u, some u ∈ G e.1 → u ∈ execIds res) := by
  intro fuel
  induction fuel with
  | zero => intro exec rest hmu; omega
  | succ fuel ih =>
    intro exec rest hmu hnd hbd hrbd hcov hout hclo
    match hfu : firstUnsearched exec with
    | some (i, v) =>
      obtain ⟨pre, post, hdec, hlen, hpre⟩ := firstUnsearched_some exec i v hfu
      subst hdec
      obtain ⟨htc1, htc2, htc3⟩ := buildToConcat_props
        (pre ++ (v, false) :: post) (G v)
      set tc := buildToConcat (pre ++ (v, false) :: post) (G v) with htc
      have hset : (pre ++ (v, false) :: post).set i (v, true) =
          pre ++ (v, true) :: post := by
        rw [← hlen]; exact set_at_pre_length pre post v false true
      have hidsset : execIds (pre ++ (v, true) :: post) =
          execIds (pre ++ (v, false) :: post) := by
        rw [execIds_append, execIds_append, execIds_cons, execIds_cons]
      have hstep : planLoop G (fuel + 1) (pre ++ (v, false) :: post) rest =
          planLoop G fuel ((pre ++ (v, true) :: post) ++ tc) rest := by
        simp only [planLoop, hfu, hset]
      have hids2 : execIds ((pre ++ (v, true) :: post) ++ tc) =
          execIds (pre ++ (v, false) :: post) ++ execIds tc := by
        rw [execIds_append, hidsset]
      have hnd2 : (execIds ((pre ++ (v, true) :: post) ++ tc)).Nodup := by
        rw [hids2]
        apply List.Nodup.append hnd htc2
        intro x hx1 hx2
        rw [mem_execIds] at hx2
        obtain ⟨e, he, hev⟩ := hx2
        exact absurd (hev ▸ (htc1 e he).2.2) (by simp [hx1])
      have hbd2 : ∀ e ∈ (pre ++ (v, true) :: post) ++ tc, e.1 < n := by
        intro e he
        rcases List.mem_append.mp he with he | he
        · have : e ∈ pre ++ (v, false) :: post ∨ e = (v, true) := by
            rcases List.mem_append.mp he with h | h
            · exact Or.inl (List.mem_append_left _ h)
            · rcases List.mem_cons.mp h with h | h
              · exact Or.inr h
              · exact Or.inl
                  (List.mem_append_right _ (List.mem_cons_of_mem _ h))
          rcases this with h | h
          · exact hbd e h
          · rw [h]
            exact hbd (v, false)
              (List.mem_append_right _ (List.mem_cons_self _ _))
        · exact hG v e.1 (htc1 e he).2.1
      have hsub : ∀ x, x ∈ execIds (pre ++ (v, false) :: post) →
          x ∈ execIds ((pre ++ (v, true) :: post) ++ tc) := by
        intro x hx
        rw [hids2, List.mem_append]
        exact Or.inl hx
      have htcsub : ∀ x, x ∈ execIds tc →
          x ∈ execIds ((pre ++ (v, true) :: post) ++ tc) := by
        intro x hx
        rw [hids2, List.mem_append]
        exact Or.inr hx
      have hmu2 : planMeasure n ((pre ++ (v, true) :: post) ++ tc) rest <
          fuel := by
        have hle : ((pre ++ (v, true) :: post) ++ tc).length ≤ n := by
          have hids_len : (execIds ((pre ++ (v, true) :: post) ++ tc)).length =
              ((pre ++ (v, true) :: post) ++ tc).length := by
            simp [execIds]
          rw [← hids_len]
          apply length_le_of_nodup_bounded n _ hnd2
          intro x hx
          rw [mem_execIds] at hx
          obtain ⟨e, he, hev⟩ := hx
          exact hev ▸ hbd2 e he
        have hA : (pre ++ (v, false) :: post).length =
            pre.length + post.length + 1 := by simp; omega
        have hB : ((pre ++ (v, true) :: post) ++ tc).length =
            pre.length + post.length + 1 + tc.length := by simp; omega
        have hpre0 : unsearchedCount pre = 0 := unsearchedCount_all_true pre hpre
        have hC : unsearchedCount (pre ++ (v, false) :: post) =
            unsearchedCount post + 1 := by
          rw [unsearchedCount_append, unsearchedCount_cons, hpre0]
          simp; omega
        have hD : unsearchedCount ((pre ++ (v, true) :: post) ++ tc) =
            unsearchedCount post + tc.length := by
          rw [unsearchedCount_append, unsearchedCount_append,
            unsearchedCount_cons, hpre0,
            unsearchedCount_all_false tc (fun e he => (htc1 e he).1)]
          simp
        unfold planMeasure at hmu ⊢
        omega
      have hcov2 : ∀ x ∈ mods0,
          x ∈ execIds ((pre ++ (v, true) :: post) ++ tc) ∨ x ∈ rest := by
        intro x hx
        rcases hcov x hx with h | h
        · exact Or.inl (hsub x h)
        · exact Or.inr h
      have hclo2 : ∀ e ∈ (pre ++ (v, true) :: post) ++ tc, e.2 = true →
          ∀ u, some u ∈ G e.1 →
            u ∈ execIds ((pre ++ (v, true) :: post) ++ tc) := by
        intro e he htrue u hu
        rcases List.mem_append.mp he with he | he
        · have : e ∈ pre ++ (v, false) :: post ∨ e = (v, true) := by
            rcases List.mem_append.mp he with h | h
            · exact Or.inl (List.mem_append_left _ h)
            · rcases List.mem_cons.mp h with h | h
              · exact Or.inr h
              · exact Or.inl
                  (List.mem_append_right _ (List.mem_cons_of_mem _ h))
          rcases this with h | h
          · exact hsub u (hclo e h htrue u hu)
          · rcases htc3 u (by rw [h] at hu; exact hu) with h2 | h2
            · exact hsub u h2
            · exact htcsub u h2
        · exact absurd htrue (by simp [(htc1 e he).1])
      obtain ⟨res, hres, hr1, hr2, hr3, hr4, hr5⟩ :=
        ih ((pre ++ (v, true) :: post) ++ tc) rest hmu2 hnd2 hbd2 hrbd hcov2
          (hsub output hout) hclo2
      exact ⟨res, by rw [hstep]; exact hres, hr1, hr2, hr3, hr4, hr5⟩
    | none =>
      have hall : ∀ e ∈ exec, e.2 = true :=
        (firstUnsearched_none_iff exec).mp hfu
      match rest with
      | [] =>
        refine ⟨exec, ?_, hnd, ?_, hout, hall, hclo⟩
        · simp only [planLoop, hfu]
        · intro x hx
          rcases hcov x hx with h | h
          · exact h
          · simp at h
      | r :: rs =>
        have hne : (r :: rs : List Nat) ≠ [] := by simp
        have hmlast : (r :: rs).getLast! = (r :: rs).getLast hne :=
          getLast_bang_eq _ hne
        have hm_mem : (r :: rs).getLast! ∈ r :: rs := by
          rw [hmlast]; exact List.getLast_mem hne
        have hrest_dec : (r :: rs).dropLast ++ [(r :: rs).getLast!] =
            r :: rs := by
          rw [hmlast]
          exact List.dropLast_append_getLast hne
        have hdrop_sub : ∀ x ∈ (r :: rs).dropLast, x ∈ r :: rs :=
          fun x hx => (List.dropLast_sublist _).subset hx
        have hstep : planLoop G (fuel + 1) exec (r :: rs) =
            planLoop G fuel
              (if exec.any fun e => e.1 = (r :: rs).getLast! then exec
                else exec ++ [((r :: rs).getLast!, false)])
              (r :: rs).dropLast := by
          simp only [planLoop, hfu]
        obtain ⟨m, hmdef⟩ : ∃ m, (r :: rs).getLast! = m := ⟨_, rfl⟩
        rw [hmdef] at hm_mem hrest_dec hstep
        have hu0 : unsearchedCount exec = 0 := unsearchedCount_all_true exec hall
        have hdroplen : (r :: rs).dropLast.length + 1 = (r :: rs).length := by
          rw [List.length_dropLast]
          simp
        by_cases hc : (exec.any fun e => e.1 = m) = true
        · rw [if_pos hc] at hstep
          have hmu2 : planMeasure n exec (r :: rs).dropLast < fuel := by
            unfold planMeasure at hmu ⊢
            omega
          have hcov2 : ∀ x ∈ mods0,
              x ∈ execIds exec ∨ x ∈ (r :: rs).dropLast := by
            intro x hx
            rcases hcov x hx with h | h
            · exact Or.inl h
            · rw [← hrest_dec, List.mem_append] at h
              rcases h with h | h
              · exact Or.inr h
              · obtain hxm : x = m := by simpa using h
                exact Or.inl (hxm ▸ (any_id_eq_true_iff _ _).mp hc)
          obtain ⟨res, hres, hr1, hr2, hr3, hr4, hr5⟩ :=
            ih exec (r :: rs).dropLast hmu2 hnd hbd
              (fun x hx => hrbd x (hdrop_sub x hx)) hcov2 hout hclo
          exact ⟨res, by rw [hstep]; exact hres, hr1, hr2, hr3, hr4, hr5⟩
        · rw [if_neg hc] at hstep
          have hmnotin : m ∉ execIds exec := by
            intro h
            exact hc ((any_id_eq_true_iff _ _).mpr h)
          have hids2 : execIds (exec ++ [(m, false)]) =
              execIds exec ++ [m] := by
            rw [execIds_append]; rfl
          have hnd2 : (execIds (exec ++ [(m, false)])).Nodup := by
            rw [hids2]
            apply List.Nodup.append hnd (by simp)
            intro x hx1 hx2
            obtain hxm : x = m := by simpa using hx2
            exact hmnotin (hxm ▸ hx1)
          have hbd2 : ∀ e ∈ exec ++ [(m, false)], e.1 < n := by
            intro e he
            rcases List.mem_append.mp he with he | he
            · exact hbd e he
            · obtain hem : e = (m, false) := by simpa using he
              rw [hem]
              exact hrbd m hm_mem
          have hle2 : (exec ++ [(m, false)]).length ≤ n := by
            have hids_len : (execIds (exec ++ [(m, false)])).length =
                (exec ++ [(m, false)]).length := by
              simp [execIds]
            rw [← hids_len]
            apply length_le_of_nodup_bounded n _ hnd2
            intro x hx
            rw [mem_execIds] at hx
            obtain ⟨e, he, hev⟩ := hx
            exact hev ▸ hbd2 e he
          have hmu2 : planMeasure n (exec ++ [(m, false)])
              (r :: rs).dropLast < fuel := by
            have hulen : unsearchedCount (exec ++ [(m, false)]) = 1 := by
              rw [unsearchedCount_append, hu0, unsearchedCount_cons]
              simp [unsearchedCount]
            have hlen2 : (exec ++ [(m, false)]).length = exec.length + 1 := by
              simp
            unfold planMeasure at hmu ⊢
            omega
          have hsub2 : ∀ x, x ∈ execIds exec →
              x ∈ execIds (exec ++ [(m, false)]) := by
            intro x hx
            rw [hids2, List.mem_append]
            exact Or.inl hx
          have hcov2 : ∀ x ∈ mods0,
              x ∈ execIds (exec ++ [(m, false)]) ∨
                x ∈ (r :: rs).dropLast := by
            intro x hx
            rcases hcov x hx with h | h
            · exact Or.inl (hsub2 x h)
            · rw [← hrest_dec, List.mem_append] at h
              rcases h with h | h
              · exact Or.inr h
              · obtain hxm : x = m := by simpa using h
                refine Or.inl ?_
                rw [hids2, List.mem_append, hxm]
                exact Or.inr (by simp)
          have hclo2 : ∀ e ∈ exec ++ [(m, false)], e.2 = true →
              ∀ u, some u ∈ G e.1 →
                u ∈ execIds (exec ++ [(m, false)]) := by
            intro e he htrue u hu
            rcases List.mem_append.mp he with he | he
            · exact hsub2 u (hclo e he htrue u hu)
            · obtain hem : e = (m, false) := by simpa using he
              rw [hem] at htrue
              exact absurd htrue (by simp)
          obtain ⟨res, hres, hr1, hr2, hr3, hr4, hr5⟩ :=
            ih (exec ++ [(m, false)]) (r :: rs).dropLast hmu2 hnd2 hbd2
              (fun x hx => hrbd x (hdrop_sub x hx)) hcov2
              (hsub2 output hout) hclo2
          exact ⟨res, by rw [hstep]; exact hres, hr1, hr2, hr3, hr4, hr5⟩

/-- Combined correctness of `plan_execution` (used by the C1 and C6
theorems): the loop returns, and the plan is duplicate-free, contains the
output and all of `mods`, and is closed under the input edges. -/
theorem plan_execution_spec (G : Nat → List (Option Nat)) (n : Nat)
    (output : Nat) (mods : List Nat)
    (hG : ∀ v u, some u ∈ G v → u < n) (hout : output < n)
    (hmods : ∀ x ∈ mods, x < n) :
    (plan_execution G n output mods).isSome ∧
    ∀ p, plan_execution G n output mods = some p →
      p.Nodup ∧ (∀ x ∈ output :: mods, x ∈ p ∧ p.count x = 1) ∧
      (∀ u v, planEdge G u v → v ∈ p → u ∈ p) := by
  have hinit : planMeasure n [(output, false)] mods < n + mods.length + 1 := by
    unfold planMeasure unsearchedCount
    simp
    omega
  obtain ⟨res, hres, hr1, hr2, hr3, hr4, hr5⟩ :=
    planLoop_main G n mods output hG (n + mods.length + 1)
      [(output, false)] mods hinit (by simp [execIds])
      (by intro e he; obtain he2 : e = (output, false) := by simpa using he
          rw [he2]; exact hout)
      hmods
      (by intro x hx; exact Or.inr hx)
      (by simp [execIds])
      (by intro e he htrue
          obtain he2 : e = (output, false) := by simpa using he
          rw [he2] at htrue; exact absurd htrue (by simp))
  have hpe : plan_execution G n output mods = some (execIds res).reverse := by
    unfold plan_execution
    rw [hres]
    rfl
  constructor
  · rw [hpe]; rfl
  · intro p hp
    rw [hpe] at hp
    obtain hpeq : p = (execIds res).reverse := (Option.some.inj hp).symm
    subst hpeq
    have hndrev : (execIds res).reverse.Nodup := by
      rw [List.nodup_reverse]; exact hr1
    refine ⟨hndrev, ?_, ?_⟩
    · intro x hx
      have hxmem : x ∈ (execIds res).reverse := by
        rw [List.mem_reverse]
        rcases List.mem_cons.mp hx with hx | hx
        · exact hx ▸ hr3
        · exact hr2 x hx
      exact ⟨hxmem, List.count_eq_one_of_mem hndrev hxmem⟩
    · intro u v hedge hv
      rw [List.mem_reverse] at hv ⊢
      rw [mem_execIds] at hv
      obtain ⟨e, he, hev⟩ := hv
      exact hr5 e he (hr4 e he) u (by rw [hev]; exact hedge)

/-- Claim C6: for every input graph — cycles and self-loops included — with
node identifiers below `n`, `plan_execution` terminates (the fuelled loop
returns `some`, i.e. the source's unbounded loop exits) and every plan it
can return is a duplicate-free total order containing the output module and
each module of the module set exactly once; the embedding has no partial
operations, matching the absence of panics. -/
theorem plan_execution_terminates (G : Nat → List (Option Nat)) (n : Nat)
    (output : Nat) (mods : List Nat)
    (hG : ∀ v u, some u ∈ G v → u < n) (hout : output < n)
    (hmods : ∀ x ∈ mods, x < n) :
    (plan_execution G n output mods).isSome ∧
    ∀ p, plan_execution G n output mods = some p →
      p.Nodup ∧ (∀ x ∈ output :: mods, x ∈ p ∧ p.count x = 1) := by
  obtain ⟨h1, h2⟩ := plan_execution_spec G n output mods hG hout hmods
  exact ⟨h1, fun p hp => ⟨(h2 p hp).1, (h2 p hp).2.1⟩⟩

/-- Witness for C6 on a concrete graph with a self-loop on module 1 (the
mixer feedback patch of the spec). -/
theorem plan_execution_terminates_witness :
    (plan_execution
      (fun v => if v = 0 then [some 1] else if v = 1 then [some 1] else [])
      2 0 [0, 1]).isSome = true := by
  refine (plan_execution_terminates _ 2 0 [0, 1] ?_ (by omega) ?_).1
  · intro v u h
    by_cases h0 : v = 0
    · rw [h0] at h
      obtain hu : u = 1 := by simpa using h
      omega
    · by_cases h1 : v = 1
      · rw [h1] at h
        simp at h
        omega
      · rw [if_neg h0, if_neg h1] at h
        exact absurd h (List.not_mem_nil _)
  · intro x hx
    rcases List.mem_cons.mp hx with hx | hx
    · omega
    · obtain hx1 : x = 1 := by simpa using hx
      omega

/-- Claim C1 (amended): every module in the graph appears in the plan
exactly once, and the plan is closed under dependencies — every module
feeding a planned module is planned.  The original topological-order part of
the claim (`index_in_plan(u) < index_in_plan(v)` for every acyclic edge) is
refuted by `plan_execution_not_topological`: the planner emits the reverse
of its breadth-first discovery order, which respects chains but not every
acyclic edge. -/
theorem plan_execution_exactly_once_closed (G : Nat → List (Option Nat))
    (n : Nat) (output : Nat) (mods : List Nat)
    (hG : ∀ v u, some u ∈ G v → u < n) (hout : output < n)
    (hmods : ∀ x ∈ mods, x < n) (p : List Nat)
    (hp : plan_execution G n output mods = some p) :
    (∀ x ∈ output :: mods, x ∈ p ∧ p.count x = 1) ∧
    (∀ u v, planEdge G u v → v ∈ p → u ∈ p) := by
  obtain ⟨_, h2⟩ := plan_execution_spec G n output mods hG hout hmods
  exact ⟨(h2 p hp).2.1, (h2 p hp).2.2⟩

/-- Witness for C1 on the concrete graph `G4`. -/
theorem plan_execution_exactly_once_closed_witness :
    ([3, 2, 1, 0].count 2 = 1) ∧ ([3, 2, 1, 0].count 0 = 1) := by
  have h := plan_execution_exactly_once_closed G4 4 0 [0, 1, 2, 3]
    (by intro v u hu
        match v with
        | 0 => obtain h2 : u = 1 ∨ u = 2 := by simpa [G4] using hu
               omega
        | 1 => exact absurd hu (List.not_mem_nil _)
        | 2 => obtain h2 : u = 3 := by simpa [G4] using hu
               omega
        | 3 => obtain h2 : u = 1 := by simpa [G4] using hu
               omega
        | nn + 4 => exact absurd hu (List.not_mem_nil _))
    (by omega)
    (by intro x hx
        have : x = 0 ∨ x = 1 ∨ x = 2 ∨ x = 3 := by simpa using hx
        omega)
    [3, 2, 1, 0] (by decide)
  exact ⟨((h.1 2 (by decide)).2), ((h.1 0 (by decide)).2)⟩

/-- Claim C1 (counterexample): in the acyclic graph `G4` the edge `1 → 3`
(module 3 reads module 1, and no path leads from 3 back to 1, as the height
function `G4height` certifies), yet the computed plan `[3, 2, 1, 0]` places
module 1 after module 3 — the claimed topological soundness fails. -/
theorem plan_execution_not_topological :
    plan_execution G4 4 0 [0, 1, 2, 3] = some [3, 2, 1, 0] ∧
    planEdge G4 1 3 ∧
    (¬ Relation.ReflTransGen (planEdge G4) 3 1) ∧
    ¬ (List.indexOf 1 [3, 2, 1, 0] < List.indexOf 3 [3, 2, 1, 0]) := by
  have hmono : ∀ a b, planEdge G4 a b → G4height a < G4height b := by
    intro a b h
    unfold planEdge at h
    match b with
    | 0 =>
      obtain ha : a = 1 ∨ a = 2 := by simpa [G4] using h
      rcases ha with ha | ha <;> subst ha <;> decide
    | 1 => exact absurd h (List.not_mem_nil _)
    | 2 =>
      obtain ha : a = 3 := by simpa [G4] using h
      subst ha; decide
    | 3 =>
      obtain ha : a = 1 := by simpa [G4] using h
      subst ha; decide
    | nn + 4 => exact absurd h (List.not_mem_nil _)
  refine ⟨by decide, by unfold planEdge; decide, ?_, by decide⟩
  intro hrt
  have hle : ∀ x y, Relation.ReflTransGen (planEdge G4) x y →
      G4height x ≤ G4height y := by
    intro x y h
    induction h with
    | refl => exact le_rfl
    | tail _ hstep ih => exact le_trans ih (le_of_lt (hmono _ _ hstep))
  exact absurd (hle 3 1 hrt) (by decide)

theorem updConn_id (c : Nat × Nat × Nat × Nat) (m : SModule) :
    (updConn c m).id = m.id := by
  unfold updConn SModule.set_input
  split
  · split
    · rfl
    · rfl
  · rfl

theorem updConn_name (c : Nat × Nat × Nat × Nat) (m : SModule) :
    (updConn c m).name = m.name := by
  unfold updConn SModule.set_input
  split
  · split
    · rfl
    · rfl
  · rfl

theorem updConn_params (c : Nat × Nat × Nat × Nat) (m : SModule) :
    (updConn c m).params = m.params := by
  unfold updConn SModule.set_input
  split
  · split
    · rfl
    · rfl
  · rfl

theorem updConn_inputs_length (c : Nat × Nat × Nat × Nat) (m : SModule) :
    (updConn c m).inputs.length = m.inputs.length := by
  unfold updConn SModule.set_input
  split
  · split
    · simp
    · rfl
  · rfl

theorem foldConns_id (cs : List (Nat × Nat × Nat × Nat)) :
    ∀ m : SModule, (cs.foldl (fun m c => updConn c m) m).id = m.id := by
  induction cs with
  | nil => intro m; rfl
  | cons c cs ih =>
    intro m
    rw [List.foldl_cons, ih, updConn_id]

theorem foldConns_name (cs : List (Nat × Nat × Nat × Nat)) :
    ∀ m : SModule, (cs.foldl (fun m c => updConn c m) m).name = m.name := by
  induction cs with
  | nil => intro m; rfl
  | cons c cs ih =>
    intro m
    rw [List.foldl_cons, ih, updConn_name]

theorem foldConns_params (cs : List (Nat × Nat × Nat × Nat)) :
    ∀ m : SModule, (cs.foldl (fun m c => updConn c m) m).params = m.params := by
  induction cs with
  | nil => intro m; rfl
  | cons c cs ih =>
    intro m
    rw [List.foldl_cons, ih, updConn_params]

theorem foldConns_inputs_length (cs : List (Nat × Nat × Nat × Nat)) :
    ∀ m : SModule,
      (cs.foldl (fun m c => updConn c m) m).inputs.length =
        m.inputs.length := by
  induction cs with
  | nil => intro m; rfl
  | cons c cs ih =>
    intro m
    rw [List.foldl_cons, ih, updConn_inputs_length]

/-- A tuple is captured exactly when some module's input slot holds the
corresponding source reference. -/
theorem mem_capture_connections (mods : List SModule)
    (c : Nat × Nat × Nat × Nat) :
    c ∈ capture_connections mods ↔
      ∃ m ∈ mods, m.id = c.2.2.1 ∧
        m.inputs[c.2.2.2]? = some (some (c.1, c.2.1)) := by
  unfold capture_connections
  rw [List.mem_flatMap]
  constructor
  · rintro ⟨m, hm, hc⟩
    rw [List.mem_filterMap] at hc
    obtain ⟨⟨i, slot⟩, hmem, hf⟩ := hc
    rw [List.mk_mem_enum_iff_getElem?] at hmem
    rw [Option.map_eq_some'] at hf
    obtain ⟨sc, hslot, heq⟩ := hf
    subst hslot
    obtain ⟨h1, h2, h3, h4⟩ :
        sc.1 = c.1 ∧ sc.2 = c.2.1 ∧ m.id = c.2.2.1 ∧ i = c.2.2.2 := by
      have e1 := congrArg Prod.fst heq
      have e2 := congrArg (fun x => x.2.1) heq
      have e3 := congrArg (fun x => x.2.2.1) heq
      have e4 := congrArg (fun x => x.2.2.2) heq
      exact ⟨e1, e2, e3, e4⟩
    refine ⟨m, hm, h3, ?_⟩
    rw [← h4, hmem]
    congr 1
    rw [← h1, ← h2]
  · rintro ⟨m, hm, hid, hslot⟩
    refine ⟨m, hm, ?_⟩
    rw [List.mem_filterMap]
    refine ⟨(c.2.2.2, some (c.1, c.2.1)), ?_, ?_⟩
    · rw [List.mk_mem_enum_iff_getElem?]
      exact hslot
    · simp [hid]

theorem foldConns_inputs_getElem (morig : SModule)
    (cs : List (Nat × Nat × Nat × Nat)) :
    ∀ (st : SModule), st.id = morig.id →
      st.inputs.length = morig.inputs.length →
      (∀ c ∈ cs, c.2.2.1 = morig.id →
        c.2.2.2 < morig.inputs.length ∧
        morig.inputs[c.2.2.2]? = some (some (c.1, c.2.1))) →
      ∀ j,
        ((∃ c ∈ cs, c.2.2.1 = morig.id ∧ c.2.2.2 = j) →
          (cs.foldl (fun m c => updConn c m) st).inputs[j]? =
            morig.inputs[j]?) ∧
        ((¬ ∃ c ∈ cs, c.2.2.1 = morig.id ∧ c.2.2.2 = j) →
          (cs.foldl (fun m c => updConn c m) st).inputs[j]? =
            st.inputs[j]?) := by
  induction cs with
  | nil =>
    intro st _ _ _ j
    constructor
    · rintro ⟨c, hc, _⟩
      exact absurd hc (List.not_mem_nil _)
    · intro _
      rfl
  | cons c cs ih =>
    intro st hid hlen hcs j
    rw [List.foldl_cons]
    by_cases htrg : c.2.2.1 = morig.id
    · -- c targets this module: set_input succeeds on slot c.2.2.2
      obtain ⟨hklt, hkval⟩ := hcs c (List.mem_cons_self _ _) htrg
      have hup : updConn c st =
          { st with inputs := st.inputs.set c.2.2.2 (some (c.1, c.2.1)) } := by
        unfold updConn SModule.set_input
        rw [if_pos (by rw [hid]; exact htrg.symm),
          if_pos (by rw [hlen]; omega)]
        rfl
      have hup_id : (updConn c st).id = morig.id := by
        rw [updConn_id, hid]
      have hup_len : (updConn c st).inputs.length = morig.inputs.length := by
        rw [updConn_inputs_length, hlen]
      obtain ⟨ih1, ih2⟩ := ih (updConn c st) hup_id hup_len
        (fun d hd => hcs d (List.mem_cons_of_mem _ hd)) j
      by_cases hj : c.2.2.2 = j
      · constructor
        · intro _
          by_cases hrest : ∃ d ∈ cs, d.2.2.1 = morig.id ∧ d.2.2.2 = j
          · exact ih1 hrest
          · rw [ih2 hrest, hup]
            subst hj
            rw [List.getElem?_set_self (by omega), hkval]
        · intro hno
          exact absurd ⟨c, List.mem_cons_self _ _, htrg, hj⟩ hno
      · constructor
        · rintro ⟨d, hd, hd1, hd2⟩
          rcases List.mem_cons.mp hd with hd | hd
          · exact absurd (hd ▸ hd2) hj
          · exact ih1 ⟨d, hd, hd1, hd2⟩
        · intro hno
          have hnorest : ¬ ∃ d ∈ cs, d.2.2.1 = morig.id ∧ d.2.2.2 = j := by
            rintro ⟨d, hd, hd1, hd2⟩
            exact hno ⟨d, List.mem_cons_of_mem _ hd, hd1, hd2⟩
          rw [ih2 hnorest, hup]
          exact List.getElem?_set_ne (fun h => hj h)
    · -- c targets another module: st unchanged
      have hup : updConn c st = st := by
        unfold updConn
        rw [if_neg (by rw [hid]; exact fun h => htrg h.symm)]

      obtain ⟨ih1, ih2⟩ := ih (updConn c st) (by rw [updConn_id, hid])
        (by rw [updConn_inputs_length, hlen])
        (fun d hd => hcs d (List.mem_cons_of_mem _ hd)) j
      constructor
      · rintro ⟨d, hd, hd1, hd2⟩
        rcases List.mem_cons.mp hd with hd | hd
        · exact absurd (hd ▸ hd1) htrg
        · rw [ih1 ⟨d, hd, hd1, hd2⟩]
      · intro hno
        have hnorest : ¬ ∃ d ∈ cs, d.2.2.1 = morig.id ∧ d.2.2.2 = j := by
          rintro ⟨d, hd, hd1, hd2⟩
          exact hno ⟨d, List.mem_cons_of_mem _ hd, hd1, hd2⟩
        rw [ih2 hnorest, hup]

/-- When every connection's endpoints resolve in the module list,
`unpack_connections` acts independently on each module. -/
theorem foldl_applyConn_eq_map (cs : List (Nat × Nat × Nat × Nat)) :
    ∀ (mods : List SModule),
      (∀ c ∈ cs, (∃ m ∈ mods, m.id = c.2.2.1) ∧ (∃ m ∈ mods, m.id = c.1)) →
      cs.foldl applyConn mods =
        mods.map (fun m => cs.foldl (fun m c => updConn c m) m) := by
  induction cs with
  | nil =>
    intro mods _
    simp
  | cons c cs ih =>
    intro mods hg
    rw [List.foldl_cons]
    have hg1 := (hg c (List.mem_cons_self _ _)).1
    have hg2 := (hg c (List.mem_cons_self _ _)).2
    have happ : applyConn mods c = mods.map (updConn c) := by
      unfold applyConn
      rw [if_pos]
      rw [Bool.and_eq_true, List.any_eq_true, List.any_eq_true]
      obtain ⟨m1, hm1, he1⟩ := hg1
      obtain ⟨m2, hm2, he2⟩ := hg2
      exact ⟨⟨m1, hm1, by simp [he1]⟩, ⟨m2, hm2, by simp [he2]⟩⟩
    rw [happ]
    rw [ih (mods.map (updConn c)) ?_]
    · rw [List.map_map]
      rfl
    · intro d hd
      obtain ⟨⟨m1, hm1, he1⟩, ⟨m2, hm2, he2⟩⟩ :=
        hg d (List.mem_cons_of_mem _ hd)
      constructor
      · exact ⟨updConn c m1, List.mem_map_of_mem _ hm1, by
          rw [updConn_id]; exact he1⟩
      · exact ⟨updConn c m2, List.mem_map_of_mem _ hm2, by
          rw [updConn_id]; exact he2⟩

theorem capture_pos_entry_ids (l : List SModule) (gp : Nat → Option (ℚ × ℚ)) :
    ∀ e ∈ capture_pos l gp, ∃ m ∈ l, e.1 = m.id := by
  intro e he
  unfold capture_pos at he
  rw [List.mem_filterMap] at he
  obtain ⟨m, hm, hf⟩ := he
  rw [Option.map_eq_some'] at hf
  obtain ⟨p, _, heq⟩ := hf
  exact ⟨m, hm, by rw [← heq]⟩

theorem lookupPos_capture_pos (gp : Nat → Option (ℚ × ℚ)) :
    ∀ l : List SModule, (l.map (fun m => m.id)).Nodup →
      ∀ m ∈ l, lookupPos (capture_pos l gp) m.id = gp m.id := by
  intro l
  induction l with
  | nil => intro _ m hm; exact absurd hm (List.not_mem_nil _)
  | cons hd tl ih =>
    intro hnd m hm
    have hnd_tl : (tl.map (fun m => m.id)).Nodup :=
      (List.nodup_cons.mp hnd).2
    have hhd_notin : hd.id ∉ tl.map (fun m => m.id) :=
      (List.nodup_cons.mp hnd).1
    have hcp : capture_pos (hd :: tl) gp =
        ((gp hd.id).map fun p => (hd.id, p)).toList ++ capture_pos tl gp := by
      unfold capture_pos
      rw [List.filterMap_cons]
      cases gp hd.id <;> simp
    rcases List.mem_cons.mp hm with hm | hm
    · subst hm
      rw [hcp]
      cases hgp : gp m.id with
      | none =>
        simp only [hgp, Option.map_none', Option.toList_none, List.nil_append]
        unfold lookupPos
        rw [List.find?_eq_none.mpr, Option.map_none']
        intro e he
        obtain ⟨m2, hm2, hem⟩ := capture_pos_entry_ids tl gp e he
        simp only [decide_eq_true_eq]
        intro hcontra
        exact hhd_notin (by
          rw [← hcontra, hem] at hhd_notin ⊢
          exact List.mem_map_of_mem _ hm2)
      | some p =>
        simp only [hgp, Option.map_some', Option.toList_some,
          List.singleton_append]
        unfold lookupPos
        rw [List.find?_cons_of_pos _ (by simp)]
        rfl
    · rw [hcp]
      have hmne : m.id ≠ hd.id := by
        intro h
        exact hhd_notin (h ▸ List.mem_map_of_mem _ hm)
      cases hgp : gp hd.id with
      | none =>
        simp only [hgp, Option.map_none', Option.toList_none, List.nil_append]
        exact ih hnd_tl m hm
      | some p =>
        simp only [hgp, Option.map_some', Option.toList_some,
          List.singleton_append]
        unfold lookupPos
        rw [List.find?_cons_of_neg _
          (by simp only [decide_eq_true_eq]; exact fun h => hmne h.symm)]
        exact ih hnd_tl m hm

/-- Replaying the captured connections onto a cleared copy of a module
restores its input slots exactly: every filled slot is rewritten with its
original content by its own connection tuple, and no tuple touches an empty
slot (module ids are distinct). -/
theorem roundtrip_fold_module (mods : List SModule)
    (hnodup : (mods.map (fun m => m.id)).Nodup) (m : SModule) (hm : m ∈ mods) :
    ((capture_connections mods).reverse.foldl (fun m c => updConn c m)
        ⟨m.id, m.name, m.params, List.replicate m.inputs.length none⟩).id =
      m.id ∧
    ((capture_connections mods).reverse.foldl (fun m c => updConn c m)
        ⟨m.id, m.name, m.params, List.replicate m.inputs.length none⟩).name =
      m.name ∧
    ((capture_connections mods).reverse.foldl (fun m c => updConn c m)
        ⟨m.id, m.name, m.params, List.replicate m.inputs.length none⟩).params =
      m.params ∧
    ((capture_connections mods).reverse.foldl (fun m c => updConn c m)
        ⟨m.id, m.name, m.params, List.replicate m.inputs.length none⟩).inputs =
      m.inputs := by
  have hcs_m : ∀ c ∈ (capture_connections mods).reverse, c.2.2.1 = m.id →
      c.2.2.2 < m.inputs.length ∧
      m.inputs[c.2.2.2]? = some (some (c.1, c.2.1)) := by
    intro c hc hcid
    rw [List.mem_reverse] at hc
    rw [mem_capture_connections] at hc
    obtain ⟨m2, hm2, hid2, hslot2⟩ := hc
    have hm2m : m2 = m :=
      List.inj_on_of_nodup_map hnodup hm2 hm (by rw [hid2, hcid])
    subst hm2m
    obtain ⟨hlt, _⟩ := List.getElem?_eq_some_iff.mp hslot2
    exact ⟨hlt, hslot2⟩
  obtain h4 := foldConns_inputs_getElem m (capture_connections mods).reverse
    ⟨m.id, m.name, m.params, List.replicate m.inputs.length none⟩
    rfl (by simp) hcs_m
  refine ⟨foldConns_id _ _, foldConns_name _ _, foldConns_params _ _, ?_⟩
  apply List.ext_getElem?
  intro j
  obtain ⟨hw, hnw⟩ := h4 j
  cases hj : m.inputs[j]? with
  | some slot =>
    have hjlt : j < m.inputs.length := (List.getElem?_eq_some_iff.mp hj).1
    cases slot with
    | some sc =>
      rw [hw ⟨(sc.1, sc.2, m.id, j), ?_, rfl, rfl⟩]
      · exact hj
      · rw [List.mem_reverse, mem_capture_connections]
        exact ⟨m, hm, rfl, by rw [hj]⟩
    | none =>
      rw [hnw ?_]
      · simp only []
        rw [List.getElem?_replicate, if_pos hjlt]
      · rintro ⟨c, hc, hcid, hcj⟩
        obtain ⟨_, hval⟩ := hcs_m c hc hcid
        rw [hcj, hj] at hval
        cases hval
  | none =>
    have hjge : m.inputs.length ≤ j := List.getElem?_eq_none_iff.mp hj
    rw [hnw ?_]
    · simp only []
      rw [List.getElem?_replicate, if_neg (by omega)]
    · rintro ⟨c, hc, hcid, hcj⟩
      obtain ⟨hlt, _⟩ := hcs_m c hc hcid
      omega

/-- Claim C8: deserializing the bytes produced by serializing a workspace
(whose module ids are distinct and whose input slots reference modules of
the workspace — the source would panic on a dangling reference) yields a
workspace in which every original module has a counterpart with the same
identity, catalog name, parameter values and input slots; the connection
set `(src_id, src_port, sink_id, sink_port)` is the same; and the stored
position of every module equals the captured one.  The `rmp_serde` byte
codec and the per-module serde records are spec-modelled (see
`SModule.to_record` / `ModuleRecord.to_module`). -/
theorem workspace_roundtrip (w : SynthModuleWorkspaceImpl)
    (get_pos : Nat → Option (ℚ × ℚ)) (replan : List SModule → List Nat)
    (hnodup : (w.modules.map (fun m => m.id)).Nodup)
    (hclosed : ∀ m ∈ w.modules, ∀ sc ∈ m.inputs.filterMap (fun s => s),
      ∃ m2 ∈ w.modules, m2.id = sc.1) :
    (∀ m ∈ w.modules,
      ∃ m2 ∈ ((w.deserialize replan
          (.ok (w.serialize get_pos))).1).modules,
        m2.id = m.id ∧ m2.name = m.name ∧ m2.params = m.params ∧
        m2.inputs = m.inputs) ∧
    (∀ c, c ∈ capture_connections
        ((w.deserialize replan (.ok (w.serialize get_pos))).1).modules ↔
      c ∈ capture_connections w.modules) ∧
    (∀ m ∈ w.modules,
      lookupPos
        ((w.deserialize replan (.ok (w.serialize get_pos))).1).modules_pos
        m.id = get_pos m.id) := by
  have hmods : ((w.deserialize replan (.ok (w.serialize get_pos))).1).modules =
      (capture_connections w.modules).reverse.foldl applyConn
        ((w.modules.map
          (fun m => (SModule.to_record m).to_module)).reverse) := by
    unfold SynthModuleWorkspaceImpl.deserialize SynthModuleWorkspaceImpl.serialize
    simp only [List.map_map]
    rfl
  have hpos : ((w.deserialize replan
      (.ok (w.serialize get_pos))).1).modules_pos =
      capture_pos w.modules get_pos := rfl
  have hclr : ∀ m : SModule, (SModule.to_record m).to_module =
      (⟨m.id, m.name, m.params, List.replicate m.inputs.length none⟩ :
        SModule) := fun m => rfl
  have hmem0 : ∀ x, x ∈ (w.modules.map
      (fun m => (SModule.to_record m).to_module)).reverse ↔
      ∃ m ∈ w.modules, (SModule.to_record m).to_module = x := by
    intro x
    rw [List.mem_reverse, List.mem_map]
  have hguard : ∀ c ∈ (capture_connections w.modules).reverse,
      (∃ m ∈ (w.modules.map
        (fun m => (SModule.to_record m).to_module)).reverse,
        m.id = c.2.2.1) ∧
      (∃ m ∈ (w.modules.map
        (fun m => (SModule.to_record m).to_module)).reverse,
        m.id = c.1) := by
    intro c hc
    rw [List.mem_reverse, mem_capture_connections] at hc
    obtain ⟨m, hm, hid, hslot⟩ := hc
    constructor
    · exact ⟨(SModule.to_record m).to_module,
        (hmem0 _).mpr ⟨m, hm, rfl⟩, by rw [hclr]; exact hid⟩
    · have hscmem : (c.1, c.2.1) ∈ m.inputs.filterMap (fun s => s) := by
        rw [List.mem_filterMap]
        exact ⟨some (c.1, c.2.1), List.getElem?_mem hslot, rfl⟩
      obtain ⟨m2, hm2, hid2⟩ := hclosed m hm (c.1, c.2.1) hscmem
      exact ⟨(SModule.to_record m2).to_module,
        (hmem0 _).mpr ⟨m2, hm2, rfl⟩, by rw [hclr]; exact hid2⟩
  have hfused : (capture_connections w.modules).reverse.foldl applyConn
      ((w.modules.map (fun m => (SModule.to_record m).to_module)).reverse) =
      ((w.modules.map (fun m => (SModule.to_record m).to_module)).reverse).map
        (fun m => (capture_connections w.modules).reverse.foldl
          (fun m c => updConn c m) m) :=
    foldl_applyConn_eq_map _ _ hguard
  have hperm : ∀ m ∈ w.modules,
      ((capture_connections w.modules).reverse.foldl (fun m c => updConn c m)
        ((SModule.to_record m).to_module)).id = m.id ∧
      ((capture_connections w.modules).reverse.foldl (fun m c => updConn c m)
        ((SModule.to_record m).to_module)).name = m.name ∧
      ((capture_connections w.modules).reverse.foldl (fun m c => updConn c m)
        ((SModule.to_record m).to_module)).params = m.params ∧
      ((capture_connections w.modules).reverse.foldl (fun m c => updConn c m)
        ((SModule.to_record m).to_module)).inputs = m.inputs := by
    intro m hm
    rw [hclr]
    exact roundtrip_fold_module w.modules hnodup m hm
  refine ⟨?_, ?_, ?_⟩
  · intro m hm
    refine ⟨(capture_connections w.modules).reverse.foldl
      (fun m c => updConn c m) ((SModule.to_record m).to_module), ?_, ?_⟩
    · rw [hmods, hfused]
      exact List.mem_map_of_mem _ ((hmem0 _).mpr ⟨m, hm, rfl⟩)
    · exact hperm m hm
  · intro c
    rw [hmods, hfused]
    rw [mem_capture_connections, mem_capture_connections]
    constructor
    · rintro ⟨m2, hm2, hid2, hslot2⟩
      rw [List.mem_map] at hm2
      obtain ⟨x, hx, hxm2⟩ := hm2
      rw [hmem0] at hx
      obtain ⟨m, hm, hmx⟩ := hx
      subst hmx
      subst hxm2
      obtain ⟨hid, _, _, hinp⟩ := hperm m hm
      refine ⟨m, hm, ?_, ?_⟩
      · rw [← hid]; exact hid2
      · rw [← hinp]; exact hslot2
    · rintro ⟨m, hm, hid, hslot⟩
      obtain ⟨hid2, _, _, hinp2⟩ := hperm m hm
      refine ⟨(capture_connections w.modules).reverse.foldl
        (fun m c => updConn c m) ((SModule.to_record m).to_module), ?_, ?_, ?_⟩
      · exact List.mem_map_of_mem _ ((hmem0 _).mpr ⟨m, hm, rfl⟩)
      · rw [hid2]; exact hid
      · rw [hinp2]; exact hslot
  · intro m hm
    rw [hpos]
    exact lookupPos_capture_pos get_pos w.modules hnodup m hm

/-- Witness for C8: a two-module workspace (a VCA fed by an Oscillator) with
one stored position round-trips that position. -/
theorem workspace_roundtrip_witness :
    lookupPos
      ((SynthModuleWorkspaceImpl.deserialize (fun _ => [])
        ⟨[⟨7, "VCA", [2], [some (9, 0), none]⟩, ⟨9, "Oscillator", [0], []⟩],
          [], 0, []⟩
        (.ok (SynthModuleWorkspaceImpl.serialize
          ⟨[⟨7, "VCA", [2], [some (9, 0), none]⟩, ⟨9, "Oscillator", [0], []⟩],
            [], 0, []⟩
          (fun i => if i = 7 then some ((1 : ℚ), (2 : ℚ)) else none)))).1).modules_pos
      7 =
      some ((1 : ℚ), (2 : ℚ)) :=
  (workspace_roundtrip
    ⟨[⟨7, "VCA", [2], [some (9, 0), none]⟩, ⟨9, "Oscillator", [0], []⟩],
      [], 0, []⟩
    (fun i => if i = 7 then some ((1 : ℚ), (2 : ℚ)) else none)
    (fun _ => [])
    (by decide)
    (by decide)).2.2
    ⟨7, "VCA", [2], [some (9, 0), none]⟩ (by decide)
